import Mathlib

/-!
Shallow embedding of the Lottie editor (`src/streamlit_app.py`) and proofs
about its color-discovery walk, color patcher, field accessors and exporters.

JSON values are modelled by an inductive type; Python numbers (int and float
conflated) are modelled as exact rationals; Python runtime errors raised by
the embedded code are modelled with `Except PyErr`.
-/

set_option maxHeartbeats 1000000

namespace LottieApp

/-- A JSON value as held in memory by the Python program after `json.load`:
`null`, booleans, numbers (int/float modelled as `ℚ`), strings, lists and
dicts (association lists in insertion order, as Python dicts preserve it). -/
inductive JSON where
  | null : JSON
  | bool : Bool → JSON
  | num : ℚ → JSON
  | str : String → JSON
  | arr : List JSON → JSON
  | obj : List (String × JSON) → JSON

mutual

/-- Structural boolean equality on JSON values. -/
def JSON.beq : JSON → JSON → Bool
  | .null, .null => true
  | .bool a, .bool b => a == b
  | .num a, .num b => a == b
  | .str a, .str b => a == b
  | .arr xs, .arr ys => JSON.beqList xs ys
  | .obj fs, .obj gs => JSON.beqFields fs gs
  | _, _ => false

/-- Structural boolean equality on JSON lists. -/
def JSON.beqList : List JSON → List JSON → Bool
  | [], [] => true
  | x :: xs, y :: ys => JSON.beq x y && JSON.beqList xs ys
  | _, _ => false

/-- Structural boolean equality on JSON field lists. -/
def JSON.beqFields : List (String × JSON) → List (String × JSON) → Bool
  | [], [] => true
  | (k, v) :: fs, (l, w) :: gs => k == l && JSON.beq v w && JSON.beqFields fs gs
  | _, _ => false

end

/-- Induction principle for `JSON` exposing membership-based hypotheses for
the nested lists. -/
theorem JSON.strongInduction (P : JSON → Prop)
    (hnull : P .null)
    (hbool : ∀ b, P (.bool b))
    (hnum : ∀ q, P (.num q))
    (hstr : ∀ s, P (.str s))
    (harr : ∀ xs, (∀ x, x ∈ xs → P x) → P (.arr xs))
    (hobj : ∀ fs, (∀ kv, kv ∈ fs → P kv.2) → P (.obj fs)) :
    ∀ t, P t
  | .null => hnull
  | .bool b => hbool b
  | .num q => hnum q
  | .str s => hstr s
  | .arr xs => harr xs (fun x hx =>
      have : sizeOf x < 1 + sizeOf xs := by
        have h := List.sizeOf_lt_of_mem hx
        omega
      JSON.strongInduction P hnull hbool hnum hstr harr hobj x)
  | .obj fs => hobj fs (fun kv hkv =>
      have : sizeOf kv.2 < 1 + sizeOf fs := by
        have h := List.sizeOf_lt_of_mem hkv
        have h2 : sizeOf kv.2 ≤ sizeOf kv := by
          obtain ⟨k, v⟩ := kv
          simp only [Prod.mk.sizeOf_spec]
          omega
        omega
      JSON.strongInduction P hnull hbool hnum hstr harr hobj kv.2)
termination_by t => sizeOf t

/-- `JSON.beqList` agrees with equality when element comparison does. -/
theorem JSON.beqList_iff (xs : List JSON)
    (ih : ∀ x, x ∈ xs → ∀ b, JSON.beq x b = true ↔ x = b) :
    ∀ ys, JSON.beqList xs ys = true ↔ xs = ys := by
  induction xs with
  | nil => intro ys; cases ys <;> simp [JSON.beqList]
  | cons x xs ihl =>
      intro ys
      cases ys with
      | nil => simp [JSON.beqList]
      | cons y ys =>
          simp only [JSON.beqList, Bool.and_eq_true, List.cons.injEq]
          rw [ih x (by simp) y, ihl (fun z hz => ih z (by simp [hz])) ys]

/-- `JSON.beqFields` agrees with equality when value comparison does. -/
theorem JSON.beqFields_iff (fs : List (String × JSON))
    (ih : ∀ kv, kv ∈ fs → ∀ b, JSON.beq kv.2 b = true ↔ kv.2 = b) :
    ∀ gs, JSON.beqFields fs gs = true ↔ fs = gs := by
  induction fs with
  | nil => intro gs; cases gs <;> simp [JSON.beqFields]
  | cons kv fs ihl =>
      intro gs
      cases gs with
      | nil => obtain ⟨k, v⟩ := kv; simp [JSON.beqFields]
      | cons lw gs =>
          obtain ⟨k, v⟩ := kv
          obtain ⟨l, w⟩ := lw
          have h1 := ih (k, v) (by simp) w
          have h2 := ihl (fun z hz => ih z (by simp [hz])) gs
          simp only at h1
          simp only [JSON.beqFields, Bool.and_eq_true, List.cons.injEq,
            Prod.mk.injEq, beq_iff_eq, h1, h2]

/-- `JSON.beq` decides equality. -/
theorem JSON.beq_iff : ∀ a b : JSON, JSON.beq a b = true ↔ a = b := by
  intro a
  induction a using JSON.strongInduction with
  | hnull => intro b; cases b <;> simp [JSON.beq]
  | hbool x => intro b; cases b <;> simp [JSON.beq]
  | hnum x => intro b; cases b <;> simp [JSON.beq]
  | hstr x => intro b; cases b <;> simp [JSON.beq]
  | harr xs ih =>
      intro b
      cases b with
      | null => simp [JSON.beq]
      | bool x => simp [JSON.beq]
      | num q => simp [JSON.beq]
      | str s => simp [JSON.beq]
      | arr ys => simpa [JSON.beq] using JSON.beqList_iff xs ih ys
      | obj gs => simp [JSON.beq]
  | hobj fs ih =>
      intro b
      cases b with
      | null => simp [JSON.beq]
      | bool x => simp [JSON.beq]
      | num q => simp [JSON.beq]
      | str s => simp [JSON.beq]
      | arr ys => simp [JSON.beq]
      | obj gs => simpa [JSON.beq] using JSON.beqFields_iff fs ih gs

instance : DecidableEq JSON :=
  fun a b => decidable_of_iff (JSON.beq a b = true) (JSON.beq_iff a b)

/-- Python runtime errors that the embedded fragments can raise. -/
inductive PyErr where
  | typeError : PyErr
  | valueError : PyErr
  | indexError : PyErr
  | keyError : PyErr
  | zeroDivisionError : PyErr
  | overflowError : PyErr
  deriving DecidableEq

instance {ε α : Type _} [DecidableEq ε] [DecidableEq α] : DecidableEq (Except ε α) :=
  fun a b =>
    match a, b with
    | .ok x, .ok y => decidable_of_iff (x = y) (by simp)
    | .error e, .error f => decidable_of_iff (e = f) (by simp)
    | .ok _, .error _ => isFalse (by simp)
    | .error _, .ok _ => isFalse (by simp)

/-- First-occurrence lookup in a dict's association list
(`d[k]` / `k in d` / `d.get(k)`); Python dicts cannot hold duplicate keys,
so on dict-shaped data this is exact. -/
def lookupKey : List (String × JSON) → String → Option JSON
  | [], _ => none
  | (k, v) :: rest, s => if k = s then some v else lookupKey rest s

/-- Python dict assignment `d[k] = v`: replace the value at an existing key
in place (keeping its position), else append the new binding. -/
def setKey : List (String × JSON) → String → JSON → List (String × JSON)
  | [], s, v => [(s, v)]
  | (k, w) :: rest, s, v =>
      if k = s then (s, v) :: rest else (k, w) :: setKey rest s v

/-- `k in d` for a dict. -/
def hasKey (fs : List (String × JSON)) (s : String) : Bool :=
  (lookupKey fs s).isSome

/-- Python `==` between a string and an arbitrary value: only an equal
string compares equal (no cross-type equality involving `str`). -/
def pyIsStr (v : JSON) (s : String) : Bool :=
  match v with
  | .str t => t = s
  | _ => false

/-- Contiguous-substring test on character lists (`needle in hay` for
Python strings; the empty needle is a substring of everything). -/
def strContains : List Char → List Char → Bool
  | needle, [] => needle.isEmpty
  | needle, c :: rest => needle.isPrefixOf (c :: rest) || strContains needle rest

/-- Python membership test `s in v` for a string `s`: key membership for
dicts, element equality for lists, substring test for strings; any other
operand raises `TypeError` (not iterable / not a container). -/
def pyContainsStr (v : JSON) (s : String) : Except PyErr Bool :=
  match v with
  | .obj fs => .ok (fs.any (fun kv => kv.1 = s))
  | .arr xs => .ok (xs.any (fun x => pyIsStr x s))
  | .str t => .ok (strContains s.toList t.toList)
  | _ => .error .typeError

/-- Python subscript `v[s]` with a string subscript: dict lookup (the key is
assumed present when used); lists and strings reject string subscripts. -/
def pySubscrStr (v : JSON) (s : String) : Except PyErr JSON :=
  match v with
  | .obj fs =>
      match lookupKey fs s with
      | some w => .ok w
      | none => .error .keyError
  | _ => .error .typeError

/-! ### Python numeric and string primitives -/

/-- ASCII decimal digit test. -/
def isDigitChar (c : Char) : Bool := '0' ≤ c && c ≤ '9'

/-- ASCII hexadecimal digit test (both cases), as accepted by `int(s, 16)`. -/
def isHexChar (c : Char) : Bool :=
  isDigitChar c || ('a' ≤ c && c ≤ 'f') || ('A' ≤ c && c ≤ 'F')

/-- Value of a (decimal or hexadecimal) digit character. -/
def digitValue (c : Char) : Nat :=
  if isDigitChar c then c.toNat - '0'.toNat
  else if 'a' ≤ c && c ≤ 'f' then c.toNat - 'a'.toNat + 10
  else if 'A' ≤ c && c ≤ 'F' then c.toNat - 'A'.toNat + 10
  else 0

/-- Base-`b` digit characters of a natural number, most significant first,
via structural recursion on a fuel bound so that the kernel can evaluate it. -/
def baseDigitsAux (b : Nat) : Nat → Nat → List Char
  | 0, n => [Nat.digitChar n]
  | fuel + 1, n =>
      if n < b then [Nat.digitChar n]
      else baseDigitsAux b fuel (n / b) ++ [Nat.digitChar (n % b)]

/-- Any sufficiently large fuel gives the same digits. -/
theorem baseDigitsAux_fuel (b : Nat) (hb : 2 ≤ b) :
    ∀ f1 f2 n, n ≤ f1 → n ≤ f2 → baseDigitsAux b f1 n = baseDigitsAux b f2 n := by
  intro f1
  induction f1 using Nat.strong_induction_on with
  | _ f1 ih =>
      intro f2 n h1 h2
      match f1, f2 with
      | 0, 0 => rfl
      | 0, f2 + 1 =>
          have hn : n = 0 := by omega
          subst hn
          simp [baseDigitsAux, show (0 : Nat) < b by omega]
      | f1 + 1, 0 =>
          have hn : n = 0 := by omega
          subst hn
          simp [baseDigitsAux, show (0 : Nat) < b by omega]
      | f1 + 1, f2 + 1 =>
          simp only [baseDigitsAux]
          by_cases hn : n < b
          · simp [hn]
          · have hdiv : n / b < n := Nat.div_lt_self (by omega) hb
            simp only [if_neg hn]
            rw [ih f1 (by omega) f2 (n / b) (by omega) (by omega)]

/-- Decimal digit characters, most significant first (Python `str(i)`). -/
def natDigits (n : Nat) : List Char := baseDigitsAux 10 n n

/-- Python `str(i)` for the nonnegative indices produced by `enumerate`. -/
def natStr (n : Nat) : String := ⟨natDigits n⟩

/-- Lowercase hexadecimal digit characters, most significant first
(as produced by Python's `x` format code). -/
def hexDigits (n : Nat) : List Char := baseDigitsAux 16 n n

/-- Python `'{:02x}'.format(n)`: lowercase hex, zero-padded to two
characters; a negative argument is rendered as a sign followed by the hex
digits of its magnitude (the sign counts toward the width). -/
def format02x (n : Int) : String :=
  if 0 ≤ n then
    let ds := hexDigits n.toNat
    ⟨if ds.length < 2 then '0' :: ds else ds⟩
  else ⟨'-' :: hexDigits (-n).toNat⟩

/-- Python `str.isdigit` restricted to ASCII: nonempty and all digits. -/
def pyIsdigit (s : String) : Bool :=
  !s.toList.isEmpty && s.toList.all isDigitChar

/-- Strip leading and trailing whitespace (Python `int`/`float` accept it). -/
def stripWs (l : List Char) : List Char :=
  ((l.dropWhile Char.isWhitespace).reverse.dropWhile Char.isWhitespace).reverse

/-- After an initial digit, Python numeric literals allow further digits
with single underscores between digits (`1_000`); no trailing or doubled
underscore. -/
def groupRest (isD : Char → Bool) : List Char → Bool
  | [] => true
  | c :: rest =>
      if c = '_' then
        match rest with
        | d :: rest2 => isD d && groupRest isD rest2
        | [] => false
      else isD c && groupRest isD rest

/-- A valid underscore-grouped digit run: nonempty, starts with a digit. -/
def validGrouped (isD : Char → Bool) : List Char → Bool
  | [] => false
  | c :: rest => isD c && groupRest isD rest

/-- Numeric value of a digit run (underscores already filtered out). -/
def digitsVal (base : Nat) (l : List Char) : Nat :=
  l.foldl (fun acc c => acc * base + digitValue c) 0

/-- Parse an unsigned underscore-grouped digit run in the given base. -/
def parseGrouped (base : Nat) (isD : Char → Bool) (l : List Char) : Option Nat :=
  if validGrouped isD l then
    some (digitsVal base (l.filter (fun c => c ≠ '_')))
  else none

/-- Parse an optional sign in front of an unsigned parse. -/
def parseSigned (p : List Char → Option Nat) : List Char → Option Int
  | '+' :: rest => (p rest).map Int.ofNat
  | '-' :: rest => (p rest).map (fun n => -(n : Int))
  | l => (p l).map Int.ofNat

/-- Python `int(s)` on a string: optional surrounding whitespace, optional
sign, underscore-grouped decimal digits; anything else raises `ValueError`. -/
def pyIntOfStr (s : String) : Option Int :=
  parseSigned (parseGrouped 10 isDigitChar) (stripWs s.toList)

/-- Python `int(s, 16)` on a string: optional surrounding whitespace,
optional sign, underscore-grouped hex digits.  (The `0x` prefix form cannot
arise here: the program only applies this to slices of at most two
characters.) -/
def pyIntStr16 (s : String) : Option Int :=
  parseSigned (parseGrouped 16 isHexChar) (stripWs s.toList)

/-- Truncation toward zero, as Python `int()` applied to a float: on an
exact rational this is T-division of the numerator by the denominator. -/
def ratTrunc (q : ℚ) : Int := Int.tdiv q.num q.den

/-- Python `int(v)` on a JSON value: truncation for numbers, 0/1 for bools,
literal parsing for strings; `None`, lists and dicts raise `TypeError`. -/
def pyInt (v : JSON) : Except PyErr Int :=
  match v with
  | .num q => .ok (ratTrunc q)
  | .bool b => .ok (if b then 1 else 0)
  | .str s =>
      match pyIntOfStr s with
      | some n => .ok n
      | none => .error .valueError
  | _ => .error .typeError

/-- Python `v * n` for a natural literal `n` (here `rgb[i] * 255`):
numbers and bools multiply numerically, strings and lists repeat,
`None` and dicts raise `TypeError`. -/
def pyMulNat (v : JSON) (n : Nat) : Except PyErr JSON :=
  match v with
  | .num q => .ok (.num (q * n))
  | .bool b => .ok (.num (if b then (n : ℚ) else 0))
  | .str s => .ok (.str ⟨List.flatten (List.replicate n s.toList)⟩)
  | .arr xs => .ok (.arr (List.flatten (List.replicate n xs)))
  | _ => .error .typeError

/-- Python `v[i]` for a nonnegative int literal subscript: list and string
indexing with bounds check; dict subscripting with an absent (non-string)
key raises `KeyError`; other values raise `TypeError`. -/
def pySubscrInt (v : JSON) (i : Nat) : Except PyErr JSON :=
  match v with
  | .arr xs =>
      match xs.get? i with
      | some x => .ok x
      | none => .error .indexError
  | .str s =>
      match s.toList.get? i with
      | some c => .ok (.str ⟨[c]⟩) | none => .error .indexError
  | .obj _ => .error .keyError
  | _ => .error .typeError

/-- Python slice `v[:n]`: lists and strings truncate, everything else
raises `TypeError`. -/
def pySliceTake (v : JSON) (n : Nat) : Except PyErr JSON :=
  match v with
  | .arr xs => .ok (.arr (xs.take n))
  | .str s => .ok (.str ⟨s.toList.take n⟩)
  | _ => .error .typeError

/-- Python slice `v[n:]`: lists and strings drop a prefix, everything else
raises `TypeError`. -/
def pySliceDrop (v : JSON) (n : Nat) : Except PyErr JSON :=
  match v with
  | .arr xs => .ok (.arr (xs.drop n))
  | .str s => .ok (.str ⟨s.toList.drop n⟩)
  | _ => .error .typeError

@[simp] theorem lookupKey_nil (s : String) : lookupKey [] s = none := rfl

@[simp] theorem lookupKey_cons (k : String) (v : JSON)
    (rest : List (String × JSON)) (s : String) :
    lookupKey ((k, v) :: rest) s = if k = s then some v else lookupKey rest s := rfl

@[simp] theorem setKey_nil (s : String) (v : JSON) : setKey [] s v = [(s, v)] := rfl

@[simp] theorem setKey_cons (k : String) (w : JSON)
    (rest : List (String × JSON)) (s : String) (v : JSON) :
    setKey ((k, w) :: rest) s v =
      if k = s then (s, v) :: rest else (k, w) :: setKey rest s v := rfl

/-! ### The Tree Walker: `find_colors` (src/streamlit_app.py lines 70-81)

The Python function mutates an accumulator list and returns `None`; the
embedding returns the sequence of appended `(path, rgba)` pairs instead.
A raised exception is modelled by `Except.error`. -/

@[simp] theorem except_bind_ok {ε α β : Type _} (a : α) (f : α → Except ε β) :
    (Except.ok a : Except ε α) >>= f = f a := rfl

@[simp] theorem except_bind_error {ε α β : Type _} (e : ε) (f : α → Except ε β) :
    (Except.error e : Except ε α) >>= f = .error e := rfl

@[simp] theorem except_pure {ε α : Type _} (a : α) :
    (pure a : Except ε α) = .ok a := rfl

/-- The tail of the emission check once `item['ty']` matched one label:
`'c' in item and 'k' in item['c']` followed by
`colors.append((path + [label], item['c']['k']))`.  The membership test
`'k' in item['c']` raises `TypeError` when `item['c']` is not a container,
and the subscript `item['c']['k']` raises when it is a list or string. -/
def colorHitC (fs : List (String × JSON)) (path : List String) (label : String) :
    Except PyErr (List (List String × JSON)) :=
  match lookupKey fs "c" with
  | none => .ok []
  | some cv => do
      let b ← pyContainsStr cv "k"
      if b then do
        let k ← pySubscrStr cv "k"
        pure [(path ++ [label], k)]
      else pure []

/-- The emission step at a dict node: the guarded checks
`item['ty'] == 'fl'/'st' and 'c' in item and 'k' in item['c']` followed by
the append. -/
def colorHit (fs : List (String × JSON)) (path : List String) :
    Except PyErr (List (List String × JSON)) :=
  match lookupKey fs "ty" with
  | none => .ok []
  | some tv =>
      if pyIsStr tv "fl" then colorHitC fs path "Fill"
      else if pyIsStr tv "st" then colorHitC fs path "Stroke"
      else .ok []

mutual

/-- `find_colors(item, colors, path)`: emit at a dict node, then recurse
into dict values in key order / list elements in index order; any other
value terminates the recursion with no emission. -/
def find_colors : JSON → List String → Except PyErr (List (List String × JSON))
  | .obj fs, path => do
      let hit ← colorHit fs path
      let rest ← findColorsFields fs path
      pure (hit ++ rest)
  | .arr xs, path => findColorsElems xs path 0
  | _, _ => pure []

/-- The loop `for key, value in item.items(): find_colors(value, colors, path + [key])`. -/
def findColorsFields :
    List (String × JSON) → List String → Except PyErr (List (List String × JSON))
  | [], _ => pure []
  | (k, v) :: rest, path => do
      let a ← find_colors v (path ++ [k])
      let b ← findColorsFields rest path
      pure (a ++ b)

/-- The loop `for i, value in enumerate(item): find_colors(value, colors, path + [str(i)])`. -/
def findColorsElems :
    List JSON → List String → Nat → Except PyErr (List (List String × JSON))
  | [], _, _ => pure []
  | x :: rest, path, i => do
      let a ← find_colors x (path ++ [natStr i])
      let b ← findColorsElems rest path (i + 1)
      pure (a ++ b)

end

/-- Modelled from the spec (section 4.2): a node "contains a `c` entry
carrying a `k` field" — the `c` value is a dict with a `k` key; emit the
pair for its `c.k`. -/
def specEmitC (fs : List (String × JSON)) (path : List String) (label : String) :
    List (List String × JSON) :=
  match lookupKey fs "c" with
  | some (.obj cf) =>
      (match lookupKey cf "k" with
       | some k => [(path ++ [label], k)]
       | none => [])
  | _ => []

/-- Modelled from the spec (section 4.2): the emission the Tree Walker
contract asks for at one dict node — the node's `ty` is `"fl"` or `"st"`
and it contains a `c` entry carrying a `k` field. -/
def specEmit (fs : List (String × JSON)) (path : List String) :
    List (List String × JSON) :=
  match lookupKey fs "ty" with
  | some tv =>
      if tv = .str "fl" then specEmitC fs path "Fill"
      else if tv = .str "st" then specEmitC fs path "Stroke"
      else []
  | none => []

mutual

/-- Modelled from the spec (section 4.2 Tree Walker contract): the total
function producing, for every qualifying node, one `(path, rgba)` pair in
depth-first order, dict keys in iteration order, list items in index order. -/
def specColors : JSON → List String → List (List String × JSON)
  | .obj fs, path => specEmit fs path ++ specColorsFields fs path
  | .arr xs, path => specColorsElems xs path 0
  | _, _ => []

/-- Spec-side recursion over dict entries. -/
def specColorsFields :
    List (String × JSON) → List String → List (List String × JSON)
  | [], _ => []
  | (k, v) :: rest, path =>
      specColors v (path ++ [k]) ++ specColorsFields rest path

/-- Spec-side recursion over list elements. -/
def specColorsElems : List JSON → List String → Nat → List (List String × JSON)
  | [], _, _ =>  []
  | x :: rest, path, i =>
      specColors x (path ++ [natStr i]) ++ specColorsElems rest path (i + 1)

end

/-- `any` over the keys agrees with `lookupKey` succeeding. -/
theorem any_fst_eq_lookup_isSome (fs : List (String × JSON)) (s : String) :
    fs.any (fun kv => kv.1 = s) = (lookupKey fs s).isSome := by
  induction fs with
  | nil => simp
  | cons kv rest ih =>
      obtain ⟨k, v⟩ := kv
      by_cases h : k = s <;> simp [h, ih]

/-- When the guarded check-and-append does not raise, it emits exactly what
the spec's contract asks for at this node and label. -/
theorem colorHitC_ok_eq_spec (fs : List (String × JSON)) (path : List String)
    (label : String) (l : List (List String × JSON))
    (h : colorHitC fs path label = .ok l) : l = specEmitC fs path label := by
  unfold colorHitC at h
  unfold specEmitC
  cases hc : lookupKey fs "c" with
  | none =>
      rw [hc] at h
      simp at h
      exact h
  | some cv =>
      rw [hc] at h
      cases cv with
      | obj cf =>
          simp only [pyContainsStr, except_bind_ok, any_fst_eq_lookup_isSome] at h
          cases hk : lookupKey cf "k" with
          | none =>
              rw [hk] at h
              simp at h
              simp [hk]
              exact h
          | some w =>
              rw [hk] at h
              simp only [Option.isSome_some, if_true, pySubscrStr, hk,
                except_bind_ok, except_pure] at h
              simp at h
              simp [hk]
              exact h.symm
      | arr xs =>
          simp only [pyContainsStr, except_bind_ok] at h
          by_cases hb : xs.any (fun x => pyIsStr x "k") = true
          · rw [hb] at h; simp [pySubscrStr] at h
          · rw [Bool.not_eq_true] at hb
            rw [hb] at h
            simp at h
            simp
            exact h
      | str t =>
          simp only [pyContainsStr, except_bind_ok] at h
          by_cases hb : strContains "k".toList t.toList = true
          · rw [hb] at h; simp [pySubscrStr] at h
          · rw [Bool.not_eq_true] at hb
            rw [hb] at h
            simp at h
            simp
            exact h
      | null => simp [pyContainsStr] at h
      | bool b => simp [pyContainsStr] at h
      | num q => simp [pyContainsStr] at h

/-- When the emission step does not raise, it matches the spec's emission. -/
theorem colorHit_ok_eq_spec (fs : List (String × JSON)) (path : List String)
    (l : List (List String × JSON)) (h : colorHit fs path = .ok l) :
    l = specEmit fs path := by
  unfold colorHit at h
  unfold specEmit
  cases hty : lookupKey fs "ty" with
  | none =>
      rw [hty] at h
      simp only [hty]
      simp at h
      exact h
  | some tv =>
      rw [hty] at h
      simp only [hty]
      by_cases hfl : tv = .str "fl"
      · subst hfl
        rw [if_pos rfl]
        have h2 : colorHitC fs path "Fill" = .ok l := by
          simpa [pyIsStr] using h
        exact colorHitC_ok_eq_spec fs path "Fill" l h2
      · by_cases hst : tv = .str "st"
        · subst hst
          rw [if_neg (by simp), if_pos rfl]
          have h2 : colorHitC fs path "Stroke" = .ok l := by
            simpa [pyIsStr] using h
          exact colorHitC_ok_eq_spec fs path "Stroke" l h2
        · rw [if_neg hfl, if_neg hst]
          have hfl2 : pyIsStr tv "fl" = false := by
            cases tv <;> simp_all [pyIsStr]
          have hst2 : pyIsStr tv "st" = false := by
            cases tv <;> simp_all [pyIsStr]
          simp [hfl2, hst2] at h
          exact h

/-- Field-loop analogue of `find_colors_ok_eq_spec`, with the member
induction hypothesis supplied explicitly. -/
theorem findColorsFields_ok_eq_spec (fs : List (String × JSON))
    (ih : ∀ kv, kv ∈ fs → ∀ p l, find_colors kv.2 p = .ok l → l = specColors kv.2 p) :
    ∀ path r, findColorsFields fs path = .ok r → r = specColorsFields fs path := by
  induction fs with
  | nil =>
      intro path r h
      simp only [findColorsFields, except_pure] at h
      simp only [specColorsFields]
      exact (Except.ok.inj h).symm
  | cons kv rest ihl =>
      obtain ⟨k, v⟩ := kv
      intro path r h
      simp only [findColorsFields] at h
      cases ha : find_colors v (path ++ [k]) with
      | error e => rw [ha] at h; simp at h
      | ok a =>
          rw [ha] at h
          cases hb : findColorsFields rest path with
          | error e => rw [hb] at h; simp at h
          | ok bl =>
              rw [hb] at h
              simp at h
              simp only [specColorsFields]
              rw [← ih (k, v) (by simp) (path ++ [k]) a ha,
                ← ihl (fun kv hkv => ih kv (by simp [hkv])) path bl hb]
              exact h.symm

/-- Element-loop analogue of `find_colors_ok_eq_spec`. -/
theorem findColorsElems_ok_eq_spec (xs : List JSON)
    (ih : ∀ x, x ∈ xs → ∀ p l, find_colors x p = .ok l → l = specColors x p) :
    ∀ path i r, findColorsElems xs path i = .ok r → r = specColorsElems xs path i := by
  induction xs with
  | nil =>
      intro path i r h
      simp only [findColorsElems, except_pure] at h
      simp only [specColorsElems]
      exact (Except.ok.inj h).symm
  | cons x rest ihl =>
      intro path i r h
      simp only [findColorsElems] at h
      cases ha : find_colors x (path ++ [natStr i]) with
      | error e => rw [ha] at h; simp at h
      | ok a =>
          rw [ha] at h
          cases hb : findColorsElems rest path (i + 1) with
          | error e => rw [hb] at h; simp at h
          | ok bl =>
              rw [hb] at h
              simp at h
              simp only [specColorsElems]
              rw [← ih x (by simp) (path ++ [natStr i]) a ha,
                ← ihl (fun y hy => ih y (by simp [hy])) path (i + 1) bl hb]
              exact h.symm

/-- Whenever the Tree Walker completes without raising, its output is
exactly the sequence demanded by the spec's contract. -/
theorem find_colors_ok_eq_spec :
    ∀ t path l, find_colors t path = .ok l → l = specColors t path := by
  intro t
  induction t using JSON.strongInduction with
  | hnull => intro path l h; simp only [find_colors, except_pure] at h
             exact (Except.ok.inj h).symm
  | hbool b => intro path l h; simp only [find_colors, except_pure] at h
               exact (Except.ok.inj h).symm
  | hnum q => intro path l h; simp only [find_colors, except_pure] at h
              exact (Except.ok.inj h).symm
  | hstr s => intro path l h; simp only [find_colors, except_pure] at h
              exact (Except.ok.inj h).symm
  | harr xs ih =>
      intro path l h
      simp only [find_colors] at h
      simp only [specColors]
      exact findColorsElems_ok_eq_spec xs ih path 0 l h
  | hobj fs ih =>
      intro path l h
      simp only [find_colors] at h
      simp only [specColors]
      cases hh : colorHit fs path with
      | error e => rw [hh] at h; simp at h
      | ok hit =>
          rw [hh] at h
          cases hr : findColorsFields fs path with
          | error e => rw [hr] at h; simp at h
          | ok rest =>
              rw [hr] at h
              simp at h
              rw [← colorHit_ok_eq_spec fs path hit hh,
                ← findColorsFields_ok_eq_spec fs ih path rest hr]
              exact h.symm

/-! ### The Patcher: `apply_color_changes` (src/streamlit_app.py lines 100-115)

The loop body walks `path[1:-1]` from the shape, one segment at a time
(`target = target[p]`), then mutates `target['c']['k']` in place.  In-place
mutation of an alias into the tree is modelled by rebuilding the tree along
the same path. -/

/-- One step of the walk (lines 104-107): a dict key present in the target,
or a digit-string index in range for a list target; anything else hits the
`else: warn; break` arm, modelled as `none`. -/
def stepSeg : JSON → String → Option JSON
  | .obj fs, p => lookupKey fs p
  | .arr xs, p =>
      if pyIsdigit p then
        if digitsVal 10 p.toList < xs.length then xs.get? (digitsVal 10 p.toList)
        else none
      else none
  | .null, _ => none
  | .bool _, _ => none
  | .num _, _ => none
  | .str _, _ => none

/-- The whole walk over the inner segments of one path. -/
def resolveSegs : JSON → List String → Option JSON
  | t, [] => some t
  | t, p :: rest =>
      match stepSeg t p with
      | some t2 => resolveSegs t2 rest
      | none => none

/-- The final guarded write (lines 112-115):
`if isinstance(target, dict) and 'c' in target and 'k' in target['c']:
target['c']['k'] = new_rgb else: warn`.  Returns the updated node and
whether the warning arm ran; the membership test raises `TypeError` on a
non-container `c` value, and the assignment raises when `target['c']` is a
list or string. -/
def ckUpdateAt : JSON → JSON → Except PyErr (JSON × Bool)
  | .obj fs, v =>
      (match lookupKey fs "c" with
       | some cv => do
           let b ← pyContainsStr cv "k"
           if b then
             match cv with
             | .obj cf => .ok (.obj (setKey fs "c" (.obj (setKey cf "k" v))), false)
             | _ => .error .typeError
           else .ok (.obj fs, true)
       | none => .ok (.obj fs, true))
  | .null, _ => .ok (.null, true)
  | .bool b, _ => .ok (.bool b, true)
  | .num q, _ => .ok (.num q, true)
  | .str s, _ => .ok (.str s, true)
  | .arr xs, _ => .ok (.arr xs, true)

/-- One whole edit of `apply_color_changes`: walk the inner segments,
rebuilding the tree along the walked path (functional image of the Python
in-place mutation); an unresolvable segment lands in the warning arm with
the tree unchanged. -/
def updateCK : JSON → List String → JSON → Except PyErr (JSON × Bool)
  | t, [], v => ckUpdateAt t v
  | .obj fs, p :: rest, v =>
      (match lookupKey fs p with
       | some child => do
           let r ← updateCK child rest v
           .ok (.obj (setKey fs p r.1), r.2)
       | none => .ok (.obj fs, true))
  | .arr xs, p :: rest, v =>
      if pyIsdigit p then
        if h : digitsVal 10 p.toList < xs.length then do
          let r ← updateCK (xs.get ⟨digitsVal 10 p.toList, h⟩) rest v
          .ok (.arr (xs.set (digitsVal 10 p.toList) r.1), r.2)
        else .ok (.arr xs, true)
      else .ok (.arr xs, true)
  | .null, _ :: _, _ => .ok (.null, true)
  | .bool b, _ :: _, _ => .ok (.bool b, true)
  | .num q, _ :: _, _ => .ok (.num q, true)
  | .str s, _ :: _, _ => .ok (.str s, true)

/-- `apply_color_changes(shape, color_changes)`: apply each staged edit in
iteration order; a raised exception aborts the remaining edits, a warning
skips only the current one.  Returns the final tree and the warned paths. -/
def apply_color_changes (shape : JSON) :
    List (List String × JSON) → Except PyErr (JSON × List (List String))
  | [] => .ok (shape, [])
  | (path, v) :: rest => do
      let r ← updateCK shape ((path.drop 1).dropLast) v
      let s ← apply_color_changes r.1 rest
      .ok (s.1, if r.2 then path :: s.2 else s.2)

/-- The "expected `c.k` shape" at a target node: a dict whose `c` entry is
a dict containing `k`. -/
def ckShapeOk : JSON → Bool
  | .obj fs =>
      (match lookupKey fs "c" with
       | some (.obj cf) => hasKey cf "k"
       | _ => false)
  | _ => false

/-- The pure patch: overwrite `c.k` at the end of the walk iff the walk
resolves and the target still has the expected shape; otherwise return the
tree unchanged. -/
def writeCK : JSON → List String → JSON → JSON
  | t, [], v =>
      (match t with
       | .obj fs =>
           (match lookupKey fs "c" with
            | some (.obj cf) =>
                if hasKey cf "k" then .obj (setKey fs "c" (.obj (setKey cf "k" v)))
                else .obj fs
            | _ => .obj fs)
       | _ => t)
  | .obj fs, p :: rest, v =>
      (match lookupKey fs p with
       | some child => .obj (setKey fs p (writeCK child rest v))
       | none => .obj fs)
  | .arr xs, p :: rest, v =>
      if pyIsdigit p then
        if h : digitsVal 10 p.toList < xs.length then
          .arr (xs.set (digitsVal 10 p.toList)
            (writeCK (xs.get ⟨digitsVal 10 p.toList, h⟩) rest v))
        else .arr xs
      else .arr xs
  | .null, _ :: _, _ => .null
  | .bool b, _ :: _, _ => .bool b
  | .num q, _ :: _, _ => .num q
  | .str s, _ :: _, _ => .str s

/-- Whether one edit ends in the warning arm: the walk breaks, or the
resolved target lacks the expected `c.k` shape. -/
def warnFlagCK (t : JSON) (segs : List String) : Bool :=
  match resolveSegs t segs with
  | none => true
  | some node => !ckShapeOk node

/-- When one edit does not raise, its result is the pure patch and its
warning flag is `warnFlagCK`: the walk breaking or a shape mismatch leaves
the tree unchanged with a warning, and a well-shaped target gets exactly
its `c.k` overwritten. -/
theorem updateCK_ok_characterization :
    ∀ segs t v r, updateCK t segs v = .ok r →
      r = (writeCK t segs v, warnFlagCK t segs) := by
  intro segs
  induction segs with
  | nil =>
      intro t v r h
      cases t with
      | obj fs =>
          simp only [updateCK, ckUpdateAt] at h
          simp only [writeCK, warnFlagCK, resolveSegs, ckShapeOk]
          cases hc : lookupKey fs "c" with
          | none => simp only [hc] at h ⊢; simp at h; simp [h]
          | some cv =>
              simp only [hc] at h ⊢
              cases cv with
              | obj cf =>
                  simp only [pyContainsStr, except_bind_ok,
                    any_fst_eq_lookup_isSome] at h
                  by_cases hk : hasKey cf "k"
                  · rw [show (lookupKey cf "k").isSome = true from hk] at h
                    simp at h
                    simp [hk, ← h]
                  · rw [show (lookupKey cf "k").isSome = false from
                      by simpa [hasKey] using hk] at h
                    simp at h
                    simp [hk, h]
              | arr xs =>
                  simp only [pyContainsStr, except_bind_ok] at h
                  by_cases hb : xs.any (fun x => pyIsStr x "k") = true
                  · simp only [hb] at h; simp at h
                  · rw [Bool.not_eq_true] at hb
                    simp only [hb] at h
                    simp at h
                    simp [h]
              | str s =>
                  simp only [pyContainsStr, except_bind_ok] at h
                  by_cases hb : strContains "k".toList s.toList = true
                  · simp only [hb] at h; simp at h
                  · rw [Bool.not_eq_true] at hb
                    simp only [hb] at h
                    simp at h
                    simp [h]
              | null => simp [pyContainsStr] at h
              | bool b => simp [pyContainsStr] at h
              | num q => simp [pyContainsStr] at h
      | null =>
          simp only [updateCK, ckUpdateAt] at h
          simp at h
          simp [h, writeCK, warnFlagCK, resolveSegs, ckShapeOk]
      | bool b =>
          simp only [updateCK, ckUpdateAt] at h
          simp at h
          simp [h, writeCK, warnFlagCK, resolveSegs, ckShapeOk]
      | num q =>
          simp only [updateCK, ckUpdateAt] at h
          simp at h
          simp [h, writeCK, warnFlagCK, resolveSegs, ckShapeOk]
      | str s =>
          simp only [updateCK, ckUpdateAt] at h
          simp at h
          simp [h, writeCK, warnFlagCK, resolveSegs, ckShapeOk]
      | arr xs =>
          simp only [updateCK, ckUpdateAt] at h
          simp at h
          simp [h, writeCK, warnFlagCK, resolveSegs, ckShapeOk]
  | cons p rest ih =>
      intro t v r h
      cases t with
      | obj fs =>
          simp only [updateCK] at h
          simp only [writeCK, warnFlagCK, resolveSegs, stepSeg]
          cases hp : lookupKey fs p with
          | none => simp only [hp] at h ⊢; simp at h; simp [h]
          | some child =>
              simp only [hp] at h ⊢
              cases hu : updateCK child rest v with
              | error e => rw [hu] at h; simp at h
              | ok r2 =>
                  rw [hu] at h
                  simp at h
                  have h2 := ih child v r2 hu
                  subst h2
                  simp [← h, warnFlagCK]
      | arr xs =>
          simp only [updateCK] at h
          simp only [writeCK, warnFlagCK, resolveSegs, stepSeg]
          by_cases hd : pyIsdigit p
          · simp only [hd, if_true] at h ⊢
            by_cases hl : digitsVal 10 p.toList < xs.length
            · simp only [dif_pos hl] at h ⊢
              have hget : xs.get? (digitsVal 10 p.toList) =
                  some (xs.get ⟨digitsVal 10 p.toList, hl⟩) :=
                List.get?_eq_get hl
              rw [if_pos hl, hget]
              cases hu : updateCK (xs.get ⟨digitsVal 10 p.toList, hl⟩) rest v with
              | error e => rw [hu] at h; simp at h
              | ok r2 =>
                  rw [hu] at h
                  simp at h
                  have h2 := ih _ v r2 hu
                  subst h2
                  simp [← h, warnFlagCK]
            · simp only [dif_neg hl] at h ⊢
              simp at h
              rw [if_neg hl]
              simp [h]
          · simp only [hd, if_false] at h ⊢
            simp at h
            simp [h]
      | null =>
          simp only [updateCK] at h
          simp at h
          simp [h, writeCK, warnFlagCK, resolveSegs, stepSeg]
      | bool b =>
          simp only [updateCK] at h
          simp at h
          simp [h, writeCK, warnFlagCK, resolveSegs, stepSeg]
      | num q =>
          simp only [updateCK] at h
          simp at h
          simp [h, writeCK, warnFlagCK, resolveSegs, stepSeg]
      | str s =>
          simp only [updateCK] at h
          simp at h
          simp [h, writeCK, warnFlagCK, resolveSegs, stepSeg]

/-! ### Decimal-string round trip: `int(str(i)) == i` and `str(i).isdigit()` -/

theorem digitChar_isDigit (d : Nat) (h : d < 10) :
    isDigitChar (Nat.digitChar d) = true := by
  interval_cases d <;> decide

theorem digitValue_digitChar (d : Nat) (h : d < 10) :
    digitValue (Nat.digitChar d) = d := by
  interval_cases d <;> decide

/-- One-step unfolding of `natDigits` independent of the internal fuel. -/
theorem natDigits_unfold (n : Nat) :
    natDigits n = if n < 10 then [Nat.digitChar n]
      else natDigits (n / 10) ++ [Nat.digitChar (n % 10)] := by
  unfold natDigits
  by_cases h : n < 10
  · rw [if_pos h]
    cases n with
    | zero => rfl
    | succ m => simp only [baseDigitsAux, if_pos h]
  · rw [if_neg h]
    cases n with
    | zero => omega
    | succ m =>
        simp only [baseDigitsAux, if_neg h]
        have hd : (m + 1) / 10 ≤ m := by
          have := Nat.div_lt_self (show 0 < m + 1 by omega) (show 1 < 10 by omega)
          omega
        rw [baseDigitsAux_fuel 10 (by omega) m ((m + 1) / 10) ((m + 1) / 10)
          hd (Nat.le_refl _)]

theorem natDigits_ne_nil (n : Nat) : natDigits n ≠ [] := by
  rw [natDigits_unfold]
  split <;> simp

theorem natDigits_all_digit :
    ∀ n, ∀ c ∈ natDigits n, isDigitChar c = true := by
  intro n
  induction n using Nat.strong_induction_on with
  | _ n ih =>
      intro c hc
      rw [natDigits_unfold] at hc
      by_cases h : n < 10
      · rw [if_pos h] at hc
        simp at hc
        subst hc
        exact digitChar_isDigit n h
      · rw [if_neg h] at hc
        rcases List.mem_append.mp hc with hc | hc
        · exact ih (n / 10) (Nat.div_lt_self (by omega) (by omega)) c hc
        · simp at hc
          subst hc
          exact digitChar_isDigit (n % 10) (Nat.mod_lt _ (by omega))

theorem digitsVal_append_singleton (b : Nat) (l : List Char) (c : Char) :
    digitsVal b (l ++ [c]) = digitsVal b l * b + digitValue c := by
  simp [digitsVal, List.foldl_append]

theorem digitsVal_natDigits : ∀ n, digitsVal 10 (natDigits n) = n := by
  intro n
  induction n using Nat.strong_induction_on with
  | _ n ih =>
      rw [natDigits_unfold]
      by_cases h : n < 10
      · rw [if_pos h]
        simp [digitsVal, digitValue_digitChar n h]
      · rw [if_neg h]
        rw [digitsVal_append_singleton,
          ih (n / 10) (Nat.div_lt_self (by omega) (by omega)),
          digitValue_digitChar (n % 10) (Nat.mod_lt _ (by omega))]
        omega

theorem natStr_toList (n : Nat) : (natStr n).toList = natDigits n := rfl

theorem pyIsdigit_natStr (n : Nat) : pyIsdigit (natStr n) = true := by
  simp only [pyIsdigit, natStr_toList, Bool.and_eq_true, Bool.not_eq_true]
  constructor
  · simpa using natDigits_ne_nil n
  · rw [List.all_eq_true]
    exact natDigits_all_digit n

theorem digitsVal_natStr (n : Nat) : digitsVal 10 (natStr n).toList = n := by
  rw [natStr_toList]
  exact digitsVal_natDigits n

/-! ### Well-formed documents: Python dicts cannot hold duplicate keys, so
any document the program can actually hold has pairwise-distinct keys at
every dict node; the association-list embedding needs this recorded. -/

/-- Pairwise-distinct keys in one dict. -/
def nodupKeys : List (String × JSON) → Bool
  | [] => true
  | (k, _) :: rest => !(rest.any (fun kv => kv.1 = k)) && nodupKeys rest

mutual

/-- Every dict node of the value has pairwise-distinct keys. -/
def wfJSON : JSON → Bool
  | .obj fs => nodupKeys fs && wfFields fs
  | .arr xs => wfElems xs
  | .null => true
  | .bool _ => true
  | .num _ => true
  | .str _ => true

/-- `wfJSON` over a dict's values. -/
def wfFields : List (String × JSON) → Bool
  | [] => true
  | (_, v) :: rest => wfJSON v && wfFields rest

/-- `wfJSON` over a list's elements. -/
def wfElems : List JSON → Bool
  | [] => true
  | x :: rest => wfJSON x && wfElems rest

end

/-- In a dict with distinct keys, looking up the key of a member pair
returns that pair's value. -/
theorem lookup_of_mem_nodup {fs : List (String × JSON)} {k : String} {v : JSON}
    (hnd : nodupKeys fs = true) (hmem : (k, v) ∈ fs) :
    lookupKey fs k = some v := by
  induction fs with
  | nil => simp at hmem
  | cons kv rest ih =>
      obtain ⟨k0, v0⟩ := kv
      simp only [nodupKeys, Bool.and_eq_true, Bool.not_eq_true] at hnd
      rcases List.mem_cons.mp hmem with heq | hmem2
      · obtain ⟨rfl, rfl⟩ := Prod.mk.injEq .. ▸ heq
        simp [lookupKey]
      · simp only [lookupKey]
        by_cases hk : k0 = k
        · subst hk
          exfalso
          have : rest.any (fun kv => kv.1 = k0) = true := by
            rw [List.any_eq_true]
            exact ⟨(k0, v), hmem2, by simp⟩
          rw [this] at hnd
          exact absurd hnd.1 (by simp)
        · rw [if_neg hk]
          exact ih hnd.2 hmem2

/-- `wfFields` gives `wfJSON` at every member value. -/
theorem wfFields_mem {fs : List (String × JSON)} (h : wfFields fs = true) :
    ∀ kv ∈ fs, wfJSON kv.2 = true := by
  induction fs with
  | nil => simp
  | cons kv0 rest ih =>
      obtain ⟨k0, v0⟩ := kv0
      simp only [wfFields, Bool.and_eq_true] at h
      intro kv hkv
      rcases List.mem_cons.mp hkv with rfl | hkv2
      · exact h.1
      · exact ih h.2 kv hkv2

/-- `wfElems` gives `wfJSON` at every member element. -/
theorem wfElems_mem {xs : List JSON} (h : wfElems xs = true) :
    ∀ x ∈ xs, wfJSON x = true := by
  induction xs with
  | nil => simp
  | cons x0 rest ih =>
      simp only [wfElems, Bool.and_eq_true] at h
      intro x hx
      rcases List.mem_cons.mp hx with rfl | hx2
      · exact h.1
      · exact ih h.2 x hx2

/-- The color carried by a node: its `c.k` value when the node has the
expected fill/stroke shape. -/
def nodeColor : JSON → Option JSON
  | .obj fs =>
      (match lookupKey fs "c" with
       | some (.obj cf) => lookupKey cf "k"
       | _ => none)
  | _ => none

/-- Whether one dict node is color-bearing: `ty` is `"fl"` or `"st"` and a
`c` entry carries a `k` field. -/
def colorBearing (fs : List (String × JSON)) : Bool :=
  (match lookupKey fs "ty" with
   | some (.str t) => t = "fl" || t = "st"
   | _ => false) &&
  (match lookupKey fs "c" with
   | some (.obj cf) => hasKey cf "k"
   | _ => false)

mutual

/-- Number of color-bearing nodes in a value. -/
def countColors : JSON → Nat
  | .obj fs => (if colorBearing fs then 1 else 0) + countColorsFields fs
  | .arr xs => countColorsElems xs
  | .null => 0
  | .bool _ => 0
  | .num _ => 0
  | .str _ => 0

/-- Count over a dict's values. -/
def countColorsFields : List (String × JSON) → Nat
  | [] => 0
  | (_, v) :: rest => countColors v + countColorsFields rest

/-- Count over a list's elements. -/
def countColorsElems : List JSON → Nat
  | [] => 0
  | x :: rest => countColors x + countColorsElems rest

end

/-- The per-node emission has length 1 exactly on color-bearing nodes. -/
theorem specEmit_length (fs : List (String × JSON)) (path : List String) :
    (specEmit fs path).length = if colorBearing fs then 1 else 0 := by
  unfold specEmit colorBearing
  cases hty : lookupKey fs "ty" with
  | none => simp
  | some tv =>
      cases tv with
      | str t =>
          by_cases hfl : t = "fl"
          · subst hfl
            cases hc : lookupKey fs "c" with
            | none => simp [hc, specEmitC]
            | some cv =>
                cases cv with
                | obj cf =>
                    cases hk : lookupKey cf "k" <;>
                      simp [hasKey, hk, hc, specEmitC]
                | null => simp [hc, specEmitC]
                | bool b => simp [hc, specEmitC]
                | num q => simp [hc, specEmitC]
                | str s2 => simp [hc, specEmitC]
                | arr xs => simp [hc, specEmitC]
          · by_cases hst : t = "st"
            · subst hst
              cases hc : lookupKey fs "c" with
              | none => simp [hc, specEmitC]
              | some cv =>
                  cases cv with
                  | obj cf =>
                      cases hk : lookupKey cf "k" <;>
                        simp [hasKey, hk, hc, specEmitC]
                  | null => simp [hc, specEmitC]
                  | bool b => simp [hc, specEmitC]
                  | num q => simp [hc, specEmitC]
                  | str s2 => simp [hc, specEmitC]
                  | arr xs => simp [hc, specEmitC]
            · simp [hfl, hst]
      | null => simp
      | bool b => simp
      | num q => simp
      | arr xs => simp
      | obj gs => simp

/-- The walker's spec-side output length equals the color-bearing count. -/
theorem specColors_length :
    ∀ t path, (specColors t path).length = countColors t := by
  have main : ∀ t, ∀ path, (specColors t path).length = countColors t := by
    intro t
    induction t using JSON.strongInduction with
    | hnull => intro path; simp [specColors, countColors]
    | hbool b => intro path; simp [specColors, countColors]
    | hnum q => intro path; simp [specColors, countColors]
    | hstr s => intro path; simp [specColors, countColors]
    | harr xs ih =>
        intro path
        simp only [specColors, countColors]
        have : ∀ ys, (∀ x ∈ ys, ∀ p, (specColors x p).length = countColors x) →
            ∀ i, (specColorsElems ys path i).length = countColorsElems ys := by
          intro ys
          induction ys with
          | nil => intro _ _; simp [specColorsElems, countColorsElems]
          | cons y rest ihl =>
              intro hmem i
              simp only [specColorsElems, countColorsElems, List.length_append]
              rw [hmem y (by simp) _, ihl (fun x hx => hmem x (by simp [hx])) (i + 1)]
        exact this xs (fun x hx p => ih x hx p) 0
    | hobj fs ih =>
        intro path
        simp only [specColors, countColors, List.length_append, specEmit_length]
        have : ∀ gs, (∀ kv ∈ gs, ∀ p, (specColors kv.2 p).length = countColors kv.2) →
            (specColorsFields gs path).length = countColorsFields gs := by
          intro gs
          induction gs with
          | nil => intro _; simp [specColorsFields, countColorsFields]
          | cons kv rest ihl =>
              intro hmem
              obtain ⟨k, v⟩ := kv
              simp only [specColorsFields, countColorsFields, List.length_append]
              rw [hmem (k, v) (by simp) _, ihl (fun x hx => hmem x (by simp [hx]))]
        rw [this fs (fun kv hkv p => ih kv hkv p)]
  exact main

/-- Membership in the spec-side field loop comes from one of the entries. -/
theorem specColorsFields_mem {fs : List (String × JSON)} {path : List String}
    {pc : List String × JSON} (h : pc ∈ specColorsFields fs path) :
    ∃ kv ∈ fs, pc ∈ specColors kv.2 (path ++ [kv.1]) := by
  induction fs with
  | nil => simp [specColorsFields] at h
  | cons kv rest ih =>
      obtain ⟨k, v⟩ := kv
      simp only [specColorsFields] at h
      rcases List.mem_append.mp h with h2 | h2
      · exact ⟨(k, v), by simp, h2⟩
      · obtain ⟨kv2, hkv2, hm⟩ := ih h2
        exact ⟨kv2, by simp [hkv2], hm⟩

/-- Membership in the spec-side element loop comes from one position. -/
theorem specColorsElems_mem {xs : List JSON} {path : List String}
    {pc : List String × JSON} :
    ∀ i, pc ∈ specColorsElems xs path i →
      ∃ j, ∃ hj : j < xs.length, pc ∈ specColors (xs.get ⟨j, hj⟩) (path ++ [natStr (i + j)]) := by
  induction xs with
  | nil => intro i h; simp [specColorsElems] at h
  | cons x rest ih =>
      intro i h
      simp only [specColorsElems] at h
      rcases List.mem_append.mp h with h2 | h2
      · exact ⟨0, by simp, by simpa using h2⟩
      · obtain ⟨j, hj, hm⟩ := ih (i + 1) h2
        refine ⟨j + 1, by simpa using hj, ?_⟩
        have : i + 1 + j = i + (j + 1) := by omega
        rw [this] at hm
        simpa using hm

/-- A pair emitted at a node itself: the path gains one synthetic label and
the color is the node's `c.k`. -/
theorem specEmit_mem {fs : List (String × JSON)} {path p : List String} {c : JSON}
    (h : (p, c) ∈ specEmit fs path) :
    ∃ label, p = path ++ [label] ∧ nodeColor (.obj fs) = some c := by
  simp only [specEmit, specEmitC] at h
  cases hty : lookupKey fs "ty" with
  | none => simp only [hty] at h; simp at h
  | some tv =>
      simp only [hty] at h
      by_cases hfl : tv = .str "fl"
      · subst hfl
        rw [if_pos rfl] at h
        cases hc : lookupKey fs "c" with
        | none => simp only [hc] at h; simp at h
        | some cv =>
            simp only [hc] at h
            cases cv with
            | obj cf =>
                cases hk : lookupKey cf "k" with
                | none => simp only [hk] at h; simp at h
                | some w =>
                    simp only [hk] at h
                    simp at h
                    exact ⟨"Fill", h.1, by simp [nodeColor, hc, hk, h.2]⟩
            | null => simp at h
            | bool b => simp at h
            | num q => simp at h
            | str s2 => simp at h
            | arr xs => simp at h
      · by_cases hst : tv = .str "st"
        · subst hst
          rw [if_neg (by simp), if_pos rfl] at h
          cases hc : lookupKey fs "c" with
          | none => simp only [hc] at h; simp at h
          | some cv =>
              simp only [hc] at h
              cases cv with
              | obj cf =>
                  cases hk : lookupKey cf "k" with
                  | none => simp only [hk] at h; simp at h
                  | some w =>
                      simp only [hk] at h
                      simp at h
                      exact ⟨"Stroke", h.1, by simp [nodeColor, hc, hk, h.2]⟩
              | null => simp at h
              | bool b => simp at h
              | num q => simp at h
              | str s2 => simp at h
              | arr xs => simp at h
        · rw [if_neg hfl, if_neg hst] at h
          simp at h

/-- On a well-formed document, every pair the spec-side walker emits
resolves, under the Patcher's rule applied to the path's inner segments,
to a node carrying exactly the discovered color. -/
theorem specColors_resolve :
    ∀ t, wfJSON t = true → ∀ path p c, (p, c) ∈ specColors t path →
      ∃ segs label node, p = path ++ segs ++ [label] ∧
        resolveSegs t segs = some node ∧ nodeColor node = some c := by
  intro t
  induction t using JSON.strongInduction with
  | hnull => intro _ path p c h; simp [specColors] at h
  | hbool b => intro _ path p c h; simp [specColors] at h
  | hnum q => intro _ path p c h; simp [specColors] at h
  | hstr s => intro _ path p c h; simp [specColors] at h
  | hobj fs ih =>
      intro hwf path p c hmem
      simp only [wfJSON, Bool.and_eq_true] at hwf
      simp only [specColors] at hmem
      rcases List.mem_append.mp hmem with hcase | hcase
      · obtain ⟨label, rfl, hcol⟩ := specEmit_mem hcase
        exact ⟨[], label, .obj fs, by simp, rfl, hcol⟩
      · obtain ⟨⟨k, v⟩, hkv, hrec⟩ := specColorsFields_mem hcase
        have hwfv : wfJSON v = true := wfFields_mem hwf.2 (k, v) hkv
        obtain ⟨segs, label, node, hp, hres, hcol⟩ :=
          ih (k, v) hkv hwfv (path ++ [k]) p c hrec
        refine ⟨k :: segs, label, node, ?_, ?_, hcol⟩
        · rw [hp]; simp
        · simp only [resolveSegs, stepSeg, lookup_of_mem_nodup hwf.1 hkv]
          exact hres
  | harr xs ih =>
      intro hwf path p c hmem
      simp only [wfJSON] at hwf
      simp only [specColors] at hmem
      obtain ⟨j, hj, hrec⟩ := specColorsElems_mem 0 hmem
      have hmemx : xs.get ⟨j, hj⟩ ∈ xs := List.get_mem xs j hj
      have hwfx : wfJSON (xs.get ⟨j, hj⟩) = true := wfElems_mem hwf _ hmemx
      obtain ⟨segs, label, node, hp, hres, hcol⟩ :=
        ih _ hmemx hwfx (path ++ [natStr (0 + j)]) p c hrec
      refine ⟨natStr (0 + j) :: segs, label, node, ?_, ?_, hcol⟩
      · rw [hp]; simp
      · simp only [resolveSegs, stepSeg, pyIsdigit_natStr, if_true, digitsVal_natStr]
        have hj0 : (0 : Nat) + j = j := by omega
        rw [hj0, if_pos hj, List.get?_eq_get hj]
        exact hres

/-! ### Color conversion: `rgb_to_hex` / `hex_to_rgb` (lines 50-55) -/

/-- `rgb_to_hex(rgb)`: `'#{:02x}{:02x}{:02x}'.format(int(rgb[0]*255),
int(rgb[1]*255), int(rgb[2]*255))`, arguments evaluated left to right. -/
def rgb_to_hex (rgb : JSON) : Except PyErr String := do
  let a ← pyInt (← pyMulNat (← pySubscrInt rgb 0) 255)
  let b ← pyInt (← pyMulNat (← pySubscrInt rgb 1) 255)
  let c ← pyInt (← pyMulNat (← pySubscrInt rgb 2) 255)
  pure ("#" ++ format02x a ++ format02x b ++ format02x c)

/-- One piece `int(hex_color[i:i+2], 16) / 255` of `hex_to_rgb`; Python
string slicing clamps, and `int('', 16)` raises `ValueError`. -/
def hexPiece (l : List Char) (i : Nat) : Except PyErr ℚ :=
  match pyIntStr16 ⟨(l.drop i).take 2⟩ with
  | some n => .ok ((n : ℚ) / 255)
  | none => .error .valueError

/-- The comprehension over `i in (0, 2, 4)` of `hex_to_rgb`. -/
def hexRgbAux (l : List Char) : Except PyErr (List ℚ) := do
  let a ← hexPiece l 0
  let b ← hexPiece l 2
  let c ← hexPiece l 4
  pure [a, b, c]

/-- `hex_to_rgb(hex_color)`: strip leading `#`s, then parse the three
two-character slices at offsets 0, 2, 4 and divide by 255. -/
def hex_to_rgb (s : String) : Except PyErr (List ℚ) :=
  hexRgbAux (s.toList.dropWhile (fun c => c = '#'))

/-! ### The editor: `edit_shape_colors` (lines 83-98)

`st.color_picker` is the user's input; it is modelled as a function from
the widget index and the displayed current color to the chosen hex string.
The identity (no-op) interaction is `fun _ current => current`. -/

/-- Python `==` between one float and a JSON value (element-wise part of
`new_rgb[:3] != color[:3]`): floats equal numbers and bools of the same
numeric value, nothing else. -/
def pyNumEqJ (q : ℚ) (v : JSON) : Bool :=
  match v with
  | .num p => p = q
  | .bool b => (if b then (1 : ℚ) else 0) = q
  | _ => false

/-- Python `==` between the list of three parsed floats and the sliced
`color[:3]` value: lists compare by length and element-wise equality; a
list never equals a non-list. -/
def stagedEq (three : List ℚ) (old : JSON) : Bool :=
  match old with
  | .arr ys =>
      three.length = ys.length &&
        (List.zip three ys).all (fun p => pyNumEqJ p.1 p.2)
  | _ => false

/-- `color_changes[tuple(path)] = new_rgb`: dict insertion keyed by the
path (overwrite keeps the first-insertion position). -/
def insertChange :
    List (List String × JSON) → List String → JSON → List (List String × JSON)
  | [], p, v => [(p, v)]
  | (q, w) :: rest, p, v =>
      if q = p then (p, v) :: rest else (q, w) :: insertChange rest p v

/-- The editor loop over the discovered `(path, color)` pairs (lines 88-96):
compute the current hex, ask the picker, parse the picked hex, preserve the
alpha, and stage the change iff the first three components differ under
Python `==`. -/
def editLoop (picker : Nat → String → String) :
    List (List String × JSON) → Nat → List (List String × JSON) →
      Except PyErr (List (List String × JSON))
  | [], _, acc => .ok acc
  | (path, color) :: rest, i, acc => do
      let sliced ← pySliceTake color 3
      let current ← rgb_to_hex sliced
      let newRgb ← hex_to_rgb (picker i current)
      let alpha ← pySubscrInt color 3
      let acc2 :=
        if stagedEq newRgb sliced then acc
        else insertChange acc path (.arr (newRgb.map JSON.num ++ [alpha]))
      editLoop picker rest (i + 1) acc2

/-- `edit_shape_colors(shape, prefix)` with the picker abstracted: discover
the colors, then run the editor loop; returns the staged `color_changes`. -/
def edit_shape_colors (shape : JSON) (pfx : String)
    (picker : Nat → String → String) :
    Except PyErr (List (List String × JSON)) := do
  let colors ← find_colors shape [pfx]
  editLoop picker colors 0 []

/-- The color-editing pass of `main` (lines 220-222): stage the edits, and
apply them only when at least one was staged.  Returns the resulting layer
and the warned paths. -/
def colorEditPass (shape : JSON) (pfx : String)
    (picker : Nat → String → String) :
    Except PyErr (JSON × List (List String)) := do
  let changes ← edit_shape_colors shape pfx picker
  if changes.isEmpty then .ok (shape, [])
  else apply_color_changes shape changes

/-! ### Hex round trip for the identity edit -/

/-- One-step unfolding of `hexDigits` independent of the internal fuel. -/
theorem hexDigits_unfold (n : Nat) :
    hexDigits n = if n < 16 then [Nat.digitChar n]
      else hexDigits (n / 16) ++ [Nat.digitChar (n % 16)] := by
  unfold hexDigits
  by_cases h : n < 16
  · rw [if_pos h]
    cases n with
    | zero => rfl
    | succ m => simp only [baseDigitsAux, if_pos h]
  · rw [if_neg h]
    cases n with
    | zero => omega
    | succ m =>
        simp only [baseDigitsAux, if_neg h]
        have hd : (m + 1) / 16 ≤ m := by
          have := Nat.div_lt_self (show 0 < m + 1 by omega) (show 1 < 16 by omega)
          omega
        rw [baseDigitsAux_fuel 16 (by omega) m ((m + 1) / 16) ((m + 1) / 16)
          hd (Nat.le_refl _)]

/-- For a byte value, `'{:02x}'.format` produces exactly the two hex digit
characters. -/
theorem format02x_toList (n : Nat) (h : n < 256) :
    (format02x ((n : Nat) : Int)).toList =
      [Nat.digitChar (n / 16), Nat.digitChar (n % 16)] := by
  unfold format02x
  rw [if_pos (by positivity)]
  have ht : ((n : Nat) : Int).toNat = n := Int.toNat_ofNat n
  rw [ht]
  by_cases h16 : n < 16
  · rw [hexDigits_unfold, if_pos h16]
    have hd : n / 16 = 0 := Nat.div_eq_of_lt h16
    have hm : n % 16 = n := Nat.mod_eq_of_lt h16
    simp [hd, hm]
    rfl
  · rw [hexDigits_unfold, if_neg h16]
    have h2 : n / 16 < 16 := by omega
    rw [hexDigits_unfold, if_pos h2]
    simp

/-- Parsing two hex digit characters recovers the byte. -/
theorem hexPair_parse : ∀ hi lo : Fin 16,
    pyIntStr16 ⟨[Nat.digitChar hi.val, Nat.digitChar lo.val]⟩ =
      some (((16 * hi.val + lo.val : Nat) : Int)) := by decide

/-- Hex digit characters are never `'#'`. -/
theorem digitChar_ne_hash : ∀ d : Fin 16, (Nat.digitChar d.val = '#') = False := by
  decide

/-- `hexPair_parse` with the bounds as hypotheses. -/
theorem hexPair_parse_nat (hi lo : Nat) (h1 : hi < 16) (h2 : lo < 16) :
    pyIntStr16 ⟨[Nat.digitChar hi, Nat.digitChar lo]⟩ =
      some (((16 * hi + lo : Nat) : Int)) :=
  hexPair_parse ⟨hi, h1⟩ ⟨lo, h2⟩

/-- Parsing the hex string `rgb_to_hex` produced from three bytes recovers
exactly the three quantized channels. -/
theorem hex_to_rgb_format (a b c : Nat) (ha : a < 256) (hb : b < 256)
    (hc : c < 256) :
    hex_to_rgb ("#" ++ format02x a ++ format02x b ++ format02x c) =
      .ok [(a : ℚ) / 255, (b : ℚ) / 255, (c : ℚ) / 255] := by
  have hla := format02x_toList a ha
  have hlb := format02x_toList b hb
  have hlc := format02x_toList c hc
  unfold hex_to_rgb hexRgbAux
  have hdata : ("#" ++ format02x (a : Int) ++ format02x (b : Int) ++
      format02x (c : Int)).toList =
      '#' :: [Nat.digitChar (a / 16), Nat.digitChar (a % 16),
        Nat.digitChar (b / 16), Nat.digitChar (b % 16),
        Nat.digitChar (c / 16), Nat.digitChar (c % 16)] := by
    have : ∀ s t : String, (s ++ t).toList = s.toList ++ t.toList := by
      intro s t
      simp [String.toList]
    rw [this, this, this, hla, hlb, hlc]
    rfl
  rw [hdata]
  have hdrop : List.dropWhile (fun ch => ch = '#')
      ('#' :: [Nat.digitChar (a / 16), Nat.digitChar (a % 16),
        Nat.digitChar (b / 16), Nat.digitChar (b % 16),
        Nat.digitChar (c / 16), Nat.digitChar (c % 16)]) =
      [Nat.digitChar (a / 16), Nat.digitChar (a % 16),
        Nat.digitChar (b / 16), Nat.digitChar (b % 16),
        Nat.digitChar (c / 16), Nat.digitChar (c % 16)] := by
    rw [List.dropWhile_cons_of_pos (by simp)]
    rw [List.dropWhile_cons_of_neg (by simp [digitChar_ne_hash ⟨a / 16, by omega⟩])]
  rw [hdrop]
  have hp0 : hexPiece [Nat.digitChar (a / 16), Nat.digitChar (a % 16),
      Nat.digitChar (b / 16), Nat.digitChar (b % 16),
      Nat.digitChar (c / 16), Nat.digitChar (c % 16)] 0 = .ok ((a : ℚ) / 255) := by
    unfold hexPiece
    rw [show List.take 2 (List.drop 0 [Nat.digitChar (a / 16), Nat.digitChar (a % 16),
      Nat.digitChar (b / 16), Nat.digitChar (b % 16),
      Nat.digitChar (c / 16), Nat.digitChar (c % 16)]) =
        [Nat.digitChar (a / 16), Nat.digitChar (a % 16)] from rfl]
    rw [hexPair_parse_nat (a / 16) (a % 16) (by omega) (Nat.mod_lt _ (by omega))]
    have : 16 * (a / 16) + a % 16 = a := by omega
    rw [this]
    norm_num
  have hp2 : hexPiece [Nat.digitChar (a / 16), Nat.digitChar (a % 16),
      Nat.digitChar (b / 16), Nat.digitChar (b % 16),
      Nat.digitChar (c / 16), Nat.digitChar (c % 16)] 2 = .ok ((b : ℚ) / 255) := by
    unfold hexPiece
    rw [show List.take 2 (List.drop 2 [Nat.digitChar (a / 16), Nat.digitChar (a % 16),
      Nat.digitChar (b / 16), Nat.digitChar (b % 16),
      Nat.digitChar (c / 16), Nat.digitChar (c % 16)]) =
        [Nat.digitChar (b / 16), Nat.digitChar (b % 16)] from rfl]
    rw [hexPair_parse_nat (b / 16) (b % 16) (by omega) (Nat.mod_lt _ (by omega))]
    have : 16 * (b / 16) + b % 16 = b := by omega
    rw [this]
    norm_num
  have hp4 : hexPiece [Nat.digitChar (a / 16), Nat.digitChar (a % 16),
      Nat.digitChar (b / 16), Nat.digitChar (b % 16),
      Nat.digitChar (c / 16), Nat.digitChar (c % 16)] 4 = .ok ((c : ℚ) / 255) := by
    unfold hexPiece
    rw [show List.take 2 (List.drop 4 [Nat.digitChar (a / 16), Nat.digitChar (a % 16),
      Nat.digitChar (b / 16), Nat.digitChar (b % 16),
      Nat.digitChar (c / 16), Nat.digitChar (c % 16)]) =
        [Nat.digitChar (c / 16), Nat.digitChar (c % 16)] from rfl]
    rw [hexPair_parse_nat (c / 16) (c % 16) (by omega) (Nat.mod_lt _ (by omega))]
    have : 16 * (c / 16) + c % 16 = c := by omega
    rw [this]
    norm_num
  simp only [hp0, hp2, hp4, except_bind_ok, except_pure]

/-- A channel value fixed under the editor's quantization: a number or bool
whose numeric value `q` satisfies `int(q*255) ∈ [0, 255]` and
`int(q*255)/255 = q` (exact rational arithmetic). -/
def FixedComp (v : JSON) : Prop :=
  ∃ q : ℚ, pyNumEqJ q v = true ∧ 0 ≤ ratTrunc (q * 255) ∧
    ratTrunc (q * 255) < 256 ∧ ((ratTrunc (q * 255) : ℚ) / 255 = q)

/-- A discovered color on which the identity interaction can stage nothing:
a list of at least four entries whose first three channels are fixed points
of the quantization. -/
def FixedColor (c : JSON) : Prop :=
  ∃ v0 v1 v2 v3 rest, c = .arr (v0 :: v1 :: v2 :: v3 :: rest) ∧
    FixedComp v0 ∧ FixedComp v1 ∧ FixedComp v2

/-- `int(v*255)` on a channel equal (in Python's `==`) to the float `q`. -/
theorem pyMul255_int (v : JSON) (q : ℚ) (h : pyNumEqJ q v = true) :
    ∃ m, pyMulNat v 255 = .ok m ∧ pyInt m = .ok (ratTrunc (q * 255)) := by
  cases v with
  | num p =>
      simp only [pyNumEqJ, decide_eq_true_eq] at h
      exact ⟨.num (p * 255), by norm_num [pyMulNat], by simp [pyInt, h]⟩
  | bool b =>
      simp only [pyNumEqJ, decide_eq_true_eq] at h
      cases b with
      | true =>
          refine ⟨.num 255, by norm_num [pyMulNat], ?_⟩
          simp only [pyInt, Except.ok.injEq]
          congr 1
          rw [← h]
          norm_num
      | false =>
          refine ⟨.num 0, by norm_num [pyMulNat], ?_⟩
          simp only [pyInt, Except.ok.injEq]
          congr 1
          rw [← h]
          norm_num
  | null => simp [pyNumEqJ] at h
  | str s => simp [pyNumEqJ] at h
  | arr xs => simp [pyNumEqJ] at h
  | obj fs => simp [pyNumEqJ] at h

/-- `rgb_to_hex` on a three-channel list of quantization-compatible values
formats the three truncated bytes. -/
theorem rgb_to_hex_fixed (v0 v1 v2 : JSON) (q0 q1 q2 : ℚ)
    (h0 : pyNumEqJ q0 v0 = true) (h1 : pyNumEqJ q1 v1 = true)
    (h2 : pyNumEqJ q2 v2 = true) :
    rgb_to_hex (.arr [v0, v1, v2]) =
      .ok ("#" ++ format02x (ratTrunc (q0 * 255)) ++
        format02x (ratTrunc (q1 * 255)) ++ format02x (ratTrunc (q2 * 255))) := by
  obtain ⟨m0, hm0, hi0⟩ := pyMul255_int v0 q0 h0
  obtain ⟨m1, hm1, hi1⟩ := pyMul255_int v1 q1 h1
  obtain ⟨m2, hm2, hi2⟩ := pyMul255_int v2 q2 h2
  unfold rgb_to_hex
  have hs0 : pySubscrInt (.arr [v0, v1, v2]) 0 = .ok v0 := by simp [pySubscrInt]
  have hs1 : pySubscrInt (.arr [v0, v1, v2]) 1 = .ok v1 := by simp [pySubscrInt]
  have hs2 : pySubscrInt (.arr [v0, v1, v2]) 2 = .ok v2 := by simp [pySubscrInt]
  simp only [hs0, hs1, hs2, except_bind_ok, hm0, hm1, hm2, hi0, hi1, hi2,
    except_pure]

/-- `hex_to_rgb` always returns exactly three floats when it succeeds. -/
theorem hex_to_rgb_len (s : String) (l : List ℚ) (h : hex_to_rgb s = .ok l) :
    l.length = 3 := by
  unfold hex_to_rgb hexRgbAux at h
  cases ha : hexPiece (s.toList.dropWhile (fun c => c = '#')) 0 with
  | error e => rw [ha] at h; simp at h
  | ok a =>
      rw [ha] at h
      cases hb : hexPiece (s.toList.dropWhile (fun c => c = '#')) 2 with
      | error e => rw [hb] at h; simp at h
      | ok b =>
          rw [hb] at h
          cases hc : hexPiece (s.toList.dropWhile (fun c => c = '#')) 4 with
          | error e => rw [hc] at h; simp at h
          | ok c =>
              rw [hc] at h
              simp at h
              simp [← h]

/-- On a quantization-fixed color, the identity interaction stages nothing:
one editor-loop iteration passes the accumulator through unchanged. -/
theorem editLoop_identity_skip (path : List String) (color : JSON)
    (rest : List (List String × JSON)) (i : Nat)
    (acc : List (List String × JSON)) (h : FixedColor color) :
    editLoop (fun _ cur => cur) ((path, color) :: rest) i acc =
      editLoop (fun _ cur => cur) rest (i + 1) acc := by
  obtain ⟨v0, v1, v2, v3, tl, rfl, hf0, hf1, hf2⟩ := h
  obtain ⟨q0, he0, hn0, hlt0, hq0⟩ := hf0
  obtain ⟨q1, he1, hn1, hlt1, hq1⟩ := hf1
  obtain ⟨q2, he2, hn2, hlt2, hq2⟩ := hf2
  simp only [editLoop]
  have hsl : pySliceTake (.arr (v0 :: v1 :: v2 :: v3 :: tl)) 3 =
      .ok (.arr [v0, v1, v2]) := by simp [pySliceTake]
  rw [hsl]
  simp only [except_bind_ok]
  rw [rgb_to_hex_fixed v0 v1 v2 q0 q1 q2 he0 he1 he2]
  simp only [except_bind_ok]
  have hcast : ∀ n : Int, 0 ≤ n → format02x n = format02x ((n.toNat : Nat) : Int) := by
    intro n hn
    rw [Int.toNat_of_nonneg hn]
  rw [hcast _ hn0, hcast _ hn1, hcast _ hn2]
  rw [hex_to_rgb_format (ratTrunc (q0 * 255)).toNat (ratTrunc (q1 * 255)).toNat
    (ratTrunc (q2 * 255)).toNat (by omega) (by omega) (by omega)]
  simp only [except_bind_ok]
  have hq : ∀ n : Int, 0 ≤ n → ∀ q : ℚ, ((n : ℚ) / 255 = q) →
      ((n.toNat : ℚ) / 255 = q) := by
    intro n hn q hq
    rw [← hq]
    congr 1
    exact_mod_cast congrArg (fun m : Int => (m : ℚ)) (Int.toNat_of_nonneg hn)
  rw [hq _ hn0 _ hq0, hq _ hn1 _ hq1, hq _ hn2 _ hq2]
  have hal : pySubscrInt (.arr (v0 :: v1 :: v2 :: v3 :: tl)) 3 = .ok v3 := by
    simp [pySubscrInt]
  rw [hal]
  simp only [except_bind_ok]
  have hst : stagedEq [q0, q1, q2] (.arr [v0, v1, v2]) = true := by
    simp [stagedEq, he0, he1, he2]
  rw [hst]
  simp

/-- With the identity interaction over quantization-fixed colors, the whole
editor loop stages no change. -/
theorem editLoop_identity (colors : List (List String × JSON))
    (h : ∀ pc ∈ colors, FixedColor pc.2) :
    ∀ i acc, editLoop (fun _ cur => cur) colors i acc = .ok acc := by
  induction colors with
  | nil => intro i acc; rfl
  | cons pc rest ih =>
      intro i acc
      obtain ⟨path, color⟩ := pc
      rw [editLoop_identity_skip path color rest i acc (h (path, color) (by simp))]
      exact ih (fun x hx => h x (by simp [hx])) (i + 1) acc

/-- A member of `insertChange acc p v` is the new binding or an old one. -/
theorem insertChange_mem {acc : List (List String × JSON)} {p : List String}
    {v : JSON} {pv : List String × JSON} (h : pv ∈ insertChange acc p v) :
    pv = (p, v) ∨ pv ∈ acc := by
  induction acc with
  | nil => simpa [insertChange] using h
  | cons qw rest ih =>
      obtain ⟨q, w⟩ := qw
      simp only [insertChange] at h
      by_cases hq : q = p
      · rw [if_pos hq] at h
        rcases List.mem_cons.mp h with rfl | h2
        · exact Or.inl rfl
        · exact Or.inr (by simp [h2])
      · rw [if_neg hq] at h
        rcases List.mem_cons.mp h with rfl | h2
        · exact Or.inr (by simp)
        · rcases ih h2 with h3 | h3
          · exact Or.inl h3
          · exact Or.inr (by simp [h3])

/-- Every staged change in the editor loop's output was either already in
the accumulator or arises from one discovered pair: three parsed floats
with the discovered color's fourth element appended verbatim. -/
theorem editLoop_mem (picker : Nat → String → String) :
    ∀ colors i acc changes, editLoop picker colors i acc = .ok changes →
      ∀ pv ∈ changes, pv ∈ acc ∨
        ∃ (color : JSON) (rgb3 : List ℚ) (alpha : JSON), (pv.1, color) ∈ colors ∧
          pySubscrInt color 3 = .ok alpha ∧ rgb3.length = 3 ∧
          pv.2 = .arr (rgb3.map JSON.num ++ [alpha]) := by
  intro colors
  induction colors with
  | nil =>
      intro i acc changes h pv hpv
      simp only [editLoop] at h
      cases h
      exact Or.inl hpv
  | cons pc rest ih =>
      obtain ⟨path, color⟩ := pc
      intro i acc changes h pv hpv
      simp only [editLoop] at h
      cases hsl : pySliceTake color 3 with
      | error e => rw [hsl] at h; simp at h
      | ok sliced =>
          rw [hsl] at h
          simp only [except_bind_ok] at h
          cases hcur : rgb_to_hex sliced with
          | error e => rw [hcur] at h; simp at h
          | ok cur =>
              rw [hcur] at h
              simp only [except_bind_ok] at h
              cases hnew : hex_to_rgb (picker i cur) with
              | error e => rw [hnew] at h; simp at h
              | ok newRgb =>
                  rw [hnew] at h
                  simp only [except_bind_ok] at h
                  cases hal : pySubscrInt color 3 with
                  | error e => rw [hal] at h; simp at h
                  | ok alpha =>
                      rw [hal] at h
                      simp only [except_bind_ok] at h
                      by_cases hstg : stagedEq newRgb sliced = true
                      · rw [if_pos hstg] at h
                        rcases ih (i + 1) acc changes h pv hpv with hi | hi
                        · exact Or.inl hi
                        · obtain ⟨c2, r3, al, hmem, hrest⟩ := hi
                          exact Or.inr ⟨c2, r3, al, by simp [hmem], hrest⟩
                      · rw [if_neg hstg] at h
                        rcases ih (i + 1) _ changes h pv hpv with hi | hi
                        · rcases insertChange_mem hi with rfl | hacc
                          · refine Or.inr ⟨color, newRgb, alpha, by simp, hal,
                              hex_to_rgb_len _ _ hnew, rfl⟩
                          · exact Or.inl hacc
                        · obtain ⟨c2, r3, al, hmem, hrest⟩ := hi
                          exact Or.inr ⟨c2, r3, al, by simp [hmem], hrest⟩

/-! ### `safe_get` (src/streamlit_app.py lines 57-68)

Python floats are modelled as exact rationals extended with the three
non-finite values `float('inf')`, `float('-inf')`, `float('nan')` that
`float(str)` can produce. -/

/-- A Python float value. -/
inductive PyFloat where
  | finite : ℚ → PyFloat
  | inf : PyFloat
  | ninf : PyFloat
  | nan : PyFloat
  deriving DecidableEq

/-- The Python values used as `safe_get` keys.  `listK` stands for the
unhashable keys (lists); every other constructor is hashable. -/
inductive PyKey where
  | strK : String → PyKey
  | intK : Int → PyKey
  | boolK : Bool → PyKey
  | floatK : ℚ → PyKey
  | noneK : PyKey
  | listK : List JSON → PyKey
  deriving DecidableEq

/-- `isinstance(key, int)`: true for ints and for bools (a subclass). -/
def isIntKey : PyKey → Bool
  | .intK _ => true
  | .boolK _ => true
  | _ => false

/-- The integer value of an int-instance key (`True` indexes as 1). -/
def keyIntVal : PyKey → Int
  | .intK n => n
  | .boolK b => if b then 1 else 0
  | _ => 0

/-- Whether the key is hashable (everything but lists). -/
def hashableKey : PyKey → Bool
  | .listK _ => false
  | _ => true

/-- Greedy run of decimal digits with single underscores between digits:
returns the accumulated value, the number of digits read, and the rest. -/
def uintRun : List Char → Nat → Nat → Nat × Nat × List Char
  | [], acc, cnt => (acc, cnt, [])
  | '_' :: d :: rest, acc, cnt =>
      if isDigitChar d then uintRun rest (acc * 10 + digitValue d) (cnt + 1)
      else (acc, cnt, '_' :: d :: rest)
  | c :: rest, acc, cnt =>
      if isDigitChar c then uintRun rest (acc * 10 + digitValue c) (cnt + 1)
      else (acc, cnt, c :: rest)

/-- Mantissa of a decimal float literal: `D [. [D]]` or `. D`. -/
def parseDecMant (l : List Char) : Option (ℚ × List Char) :=
  match uintRun l 0 0 with
  | (v1, c1, r1) =>
      match r1 with
      | '.' :: r2 =>
          (match uintRun r2 0 0 with
           | (v2, c2, r3) =>
               if c1 = 0 && c2 = 0 then none
               else some ((v1 : ℚ) + (v2 : ℚ) / ((10 : ℚ) ^ c2), r3))
      | _ => if c1 = 0 then none else some ((v1 : ℚ), r1)

/-- Apply a signed decimal exponent. -/
def applyExp (m : ℚ) (sign : Bool) (e : Nat) : ℚ :=
  if sign then m * (10 : ℚ) ^ e else m / ((10 : ℚ) ^ e)

/-- Full decimal float token (mantissa and optional exponent); must consume
the whole string. -/
def parseFloatTok (l : List Char) : Option ℚ :=
  match parseDecMant l with
  | none => none
  | some (m, r) =>
      match r with
      | [] => some m
      | c :: r2 =>
          if c = 'e' || c = 'E' then
            match r2 with
            | '+' :: r3 =>
                (match uintRun r3 0 0 with
                 | (e, ce, r4) => if ce ≠ 0 && r4.isEmpty then some (applyExp m true e) else none)
            | '-' :: r3 =>
                (match uintRun r3 0 0 with
                 | (e, ce, r4) => if ce ≠ 0 && r4.isEmpty then some (applyExp m false e) else none)
            | r3 =>
                (match uintRun r3 0 0 with
                 | (e, ce, r4) => if ce ≠ 0 && r4.isEmpty then some (applyExp m true e) else none)
          else none

/-- The special non-finite float literals, compared case-insensitively. -/
def parseSpecial (l : List Char) : Option PyFloat :=
  let low := l.map Char.toLower
  if low = "inf".toList || low = "infinity".toList then some .inf
  else if low = "nan".toList then some .nan
  else none

/-- Negation on Python floats (`float('-nan')` is still `nan`). -/
def pyNegF : PyFloat → PyFloat
  | .finite q => .finite (-q)
  | .inf => .ninf
  | .ninf => .inf
  | .nan => .nan

/-- The unsigned part of `float(s)`. -/
def pyFloatCore (l : List Char) : Option PyFloat :=
  match parseSpecial l with
  | some f => some f
  | none => (parseFloatTok l).map .finite

/-- Python `float(s)` on a string: surrounding whitespace, optional sign,
then a special literal or a decimal token. -/
def pyFloatOfStr (s : String) : Option PyFloat :=
  match stripWs s.toList with
  | '+' :: r => pyFloatCore r
  | '-' :: r => (pyFloatCore r).map pyNegF
  | r => pyFloatCore r

/-- The smallest magnitude at which CPython `float(int)` overflows: an
integer whose correctly rounded double value exceeds the largest finite
double (`2^1024 - 2^971`), i.e. any integer at or beyond the rounding
midpoint `2^1024 - 2^970`. -/
def floatOverflowBound : ℚ := ((2 ^ 1024 - 2 ^ 970 : ℕ) : ℚ)

/-- Whether `float()` of a JSON number raises `OverflowError`.  Numbers
are modelled as exact rationals, conflating Python ints and floats; a
value at or beyond the bound is only reachable as an int (finite doubles
all stop short of it), and `float(int)` overflows exactly there, while on
every reachable value below the bound `float()` succeeds — the identity
on floats, and on ints a rounding this exact-value model elides. -/
def numOverflows (q : ℚ) : Bool :=
  decide (floatOverflowBound ≤ q) || decide (q ≤ -floatOverflowBound)

/-- Python `float(v)` on a JSON value: the identity on numbers, except
that integers beyond the double range raise `OverflowError`; 0/1 on
bools; literal parsing on strings (`ValueError` on failure); `None`,
lists and dicts raise `TypeError`. -/
def pyFloat : JSON → Except PyErr PyFloat
  | .num q => if numOverflows q then .error .overflowError else .ok (.finite q)
  | .bool b => .ok (.finite (if b then 1 else 0))
  | .str s =>
      (match pyFloatOfStr s with
       | some f => .ok f
       | none => .error .valueError)
  | .null => .error .typeError
  | .arr _ => .error .typeError
  | .obj _ => .error .typeError

/-- The value-selection phase of `safe_get` (lines 58-63): dict lookup with
default (`TypeError` on an unhashable key), bounds-checked list indexing
for int-instance keys, and the default for everything else. -/
def selectValue : JSON → PyKey → JSON → Except PyErr JSON
  | .obj fs, key, default =>
      if hashableKey key then
        match key with
        | .strK s => .ok ((lookupKey fs s).getD default)
        | _ => .ok default
      else .error .typeError
  | .arr xs, key, default =>
      if isIntKey key then
        if 0 ≤ keyIntVal key ∧ keyIntVal key < (xs.length : Int) then
          .ok ((xs.get? (keyIntVal key).toNat).getD default)
        else .ok default
      else .ok default
  | .null, _, default => .ok default
  | .bool _, _, default => .ok default
  | .num _, _, default => .ok default
  | .str _, _, default => .ok default

/-- `safe_get(obj, key, default)`: select the value and coerce it to
float; `except (ValueError, TypeError)` replaces exactly those two
failures with `float(default)` — which itself propagates if the default
cannot be coerced — while any other error, such as the `OverflowError`
from an out-of-range integer value, propagates uncaught. -/
def safe_get (obj : JSON) (key : PyKey) (default : JSON) :
    Except PyErr PyFloat := do
  let v ← selectValue obj key default
  match pyFloat v with
  | .ok f => pure f
  | .error .valueError => pyFloat default
  | .error .typeError => pyFloat default
  | .error e => .error e

/-- `float()` only ever fails with `ValueError`, `TypeError` or
`OverflowError`. -/
theorem pyFloat_error_cases (v : JSON) (e : PyErr) (h : pyFloat v = .error e) :
    e = .valueError ∨ e = .typeError ∨ e = .overflowError := by
  cases v with
  | num q =>
      simp only [pyFloat] at h
      split at h
      · injection h with h; subst h; simp
      · exact absurd h (by simp)
  | bool b => simp [pyFloat] at h
  | str s =>
      simp only [pyFloat] at h
      split at h
      · exact absurd h (by simp)
      · injection h with h; subst h; simp
  | null => simp only [pyFloat] at h; injection h with h; subst h; simp
  | arr xs => simp only [pyFloat] at h; injection h with h; subst h; simp
  | obj fs => simp only [pyFloat] at h; injection h with h; subst h; simp

/-! ### GIF export duration (line 243): `gif_frames / safe_get(lottie_json, 'fr', 60)` -/

/-- Python float division: division by (exactly) zero raises
`ZeroDivisionError`; division by an infinity yields 0; `nan` propagates. -/
def pyDiv (a b : PyFloat) : Except PyErr PyFloat :=
  match b with
  | .finite q =>
      if q = 0 then .error .zeroDivisionError
      else
        (match a with
         | .finite p => .ok (.finite (p / q))
         | .inf => .ok (if 0 < q then .inf else .ninf)
         | .ninf => .ok (if 0 < q then .ninf else .inf)
         | .nan => .ok .nan)
  | .inf =>
      (match a with
       | .finite _ => .ok (.finite 0)
       | _ => .ok .nan)
  | .ninf =>
      (match a with
       | .finite _ => .ok (.finite 0)
       | _ => .ok .nan)
  | .nan => .ok .nan

/-- The duration computed for the GIF export. -/
def gifDuration (frames : ℚ) (doc : JSON) : Except PyErr PyFloat := do
  let fr ← safe_get doc (.strK "fr") (.num 60)
  pyDiv (.finite frames) fr

/-! ### Trim slider (lines 163-166) -/

/-- Python float subtraction on the two `safe_get` results. -/
def pySubF : PyFloat → PyFloat → PyFloat
  | .finite p, .finite q => .finite (p - q)
  | .finite _, .inf => .ninf
  | .finite _, .ninf => .inf
  | .inf, .finite _ => .inf
  | .ninf, .finite _ => .ninf
  | .inf, .ninf => .inf
  | .ninf, .inf => .ninf
  | .inf, .inf => .nan
  | .ninf, .ninf => .nan
  | _, .nan => .nan
  | .nan, _ => .nan

/-- Python `int()` on a float: truncation; infinities overflow and `nan`
raises `ValueError`. -/
def pyIntOfFloat : PyFloat → Except PyErr Int
  | .finite q => .ok (ratTrunc q)
  | .inf => .error .overflowError
  | .ninf => .error .overflowError
  | .nan => .error .valueError

/-- `total_frames = max(1, int(safe_get(doc,'op',60) - safe_get(doc,'ip',0)))`. -/
def total_frames (doc : JSON) : Except PyErr Int := do
  let op ← safe_get doc (.strK "op") (.num 60)
  let ip ← safe_get doc (.strK "ip") (.num 0)
  let d ← pyIntOfFloat (pySubF op ip)
  pure (max 1 d)

/-- Writing the slider selection back:
`lottie_json['ip'] = float(trim_start); lottie_json['op'] = float(trim_end)`
(raises `TypeError` if the document is not a dict). -/
def trimUpdate (doc : JSON) (a b : Int) : Except PyErr JSON :=
  match doc with
  | .obj fs => .ok (.obj (setKey (setKey fs "ip" (.num a)) "op" (.num b)))
  | _ => .error .typeError

/-! ### Transform editor (lines 192-208) -/

/-- Python `[x, y] + tail`: list concatenation; `TypeError` when the right
operand is not a list. -/
def pyListConcat (l : List JSON) (t : JSON) : Except PyErr JSON :=
  match t with
  | .arr ys => .ok (.arr (l ++ ys))
  | _ => .error .typeError

/-- The position block (lines 192-199), abstracting the two number inputs:
read `pos` (keyed `{k: ...}` or bare), write back
`[new_pos_x, new_pos_y] + pos[2:]` into the same representation.  Returns
the updated `ks` dict. -/
def editPosition (ks : List (String × JSON)) (x y : ℚ) :
    Except PyErr (List (String × JSON)) :=
  match lookupKey ks "p" with
  | none => .ok ks
  | some pv =>
      let pos :=
        match pv with
        | .obj pf => (lookupKey pf "k").getD (.arr [.num 0, .num 0])
        | _ => pv
      do
        let tail ← pySliceDrop pos 2
        let newList ← pyListConcat [JSON.num x, JSON.num y] tail
        match pv with
        | .obj pf => .ok (setKey ks "p" (.obj (setKey pf "k" newList)))
        | _ => .ok (setKey ks "p" newList)

/-- The scale block (lines 201-208), same shape with default `[100, 100]`. -/
def editScale (ks : List (String × JSON)) (x y : ℚ) :
    Except PyErr (List (String × JSON)) :=
  match lookupKey ks "s" with
  | none => .ok ks
  | some sv =>
      let scale :=
        match sv with
        | .obj sf => (lookupKey sf "k").getD (.arr [.num 100, .num 100])
        | _ => sv
      do
        let tail ← pySliceDrop scale 2
        let newList ← pyListConcat [JSON.num x, JSON.num y] tail
        match sv with
        | .obj sf => .ok (setKey ks "s" (.obj (setKey sf "k" newList)))
        | _ => .ok (setKey ks "s" newList)

/-! ### Loader (lines 40-48): `load_lottieurl` -/

/-- The outcome of `requests.get(url)` as seen by the program: a transport
error, or a response with a final status code and a body that either parses
as JSON or does not. -/
inductive Fetch where
  | transport : Fetch
  | resp : Nat → Except Unit JSON → Fetch

/-- `load_lottieurl(url)`: `raise_for_status` raises exactly for status
codes in `[400, 600)`; `r.json()` raises on an unparseable body; any raise
is caught, reported with `st.error`, and `None` is returned.  The result is
the produced document (if any) paired with whether an error was reported. -/
def load_lottieurl : Fetch → Option JSON × Bool
  | .transport => (none, true)
  | .resp status body =>
      if 400 ≤ status ∧ status < 600 then (none, true)
      else
        match body with
        | .ok j => (some j, false)
        | .error _ => (none, true)

/-! ### Helper identities for the patcher and the trim writes -/

/-- Re-assigning a key its looked-up value leaves the dict unchanged. -/
theorem setKey_lookup_self {fs : List (String × JSON)} {p : String} {w : JSON}
    (h : lookupKey fs p = some w) : setKey fs p w = fs := by
  induction fs with
  | nil => simp at h
  | cons kv rest ih =>
      obtain ⟨k, v⟩ := kv
      simp only [lookupKey] at h
      simp only [setKey]
      by_cases hk : k = p
      · rw [if_pos hk] at h
        rw [if_pos hk, hk]
        simp at h
        rw [h]
      · rw [if_neg hk] at h
        rw [if_neg hk, ih h]

/-- Setting an index to its own element leaves the list unchanged. -/
theorem list_set_get_self : ∀ (xs : List JSON) (i : Nat) (h : i < xs.length),
    xs.set i (xs.get ⟨i, h⟩) = xs := by
  intro xs
  induction xs with
  | nil => intro i h; simp at h
  | cons x rest ih =>
      intro i h
      cases i with
      | zero => simp
      | succ j => simpa using ih j (by simpa using h)

/-- When the walk breaks, the edit completes without raising, warns, and
leaves the tree unchanged. -/
theorem updateCK_break :
    ∀ segs t v, resolveSegs t segs = none → updateCK t segs v = .ok (t, true) := by
  intro segs
  induction segs with
  | nil => intro t v h; simp [resolveSegs] at h
  | cons p rest ih =>
      intro t v h
      simp only [resolveSegs] at h
      cases t with
      | obj fs =>
          simp only [stepSeg] at h
          simp only [updateCK]
          cases hp : lookupKey fs p with
          | none => rfl
          | some child =>
              rw [hp] at h
              have h2 : resolveSegs child rest = none := h
              show (do
                let r ← updateCK child rest v
                (Except.ok (JSON.obj (setKey fs p r.1), r.2) :
                  Except PyErr (JSON × Bool))) = .ok (.obj fs, true)
              rw [ih child v h2, except_bind_ok, setKey_lookup_self hp]
      | arr xs =>
          simp only [stepSeg] at h
          simp only [updateCK]
          by_cases hd : pyIsdigit p
          · rw [if_pos hd] at h
            rw [if_pos hd]
            by_cases hl : digitsVal 10 p.toList < xs.length
            · rw [if_pos hl, List.get?_eq_get hl] at h
              have h2 : resolveSegs (xs.get ⟨digitsVal 10 p.toList, hl⟩) rest = none := h
              rw [dif_pos hl, ih _ v h2, except_bind_ok,
                list_set_get_self xs _ hl]
            · rw [if_neg hl] at h
              rw [dif_neg hl]
          · rw [if_neg hd] at h
            rw [if_neg hd]
      | null => rfl
      | bool b => rfl
      | num q => rfl
      | str s => rfl

/-- When the walk resolves to a target with the expected `c.k` shape, the
edit completes without raising, does not warn, and performs the pure
patch. -/
theorem updateCK_good :
    ∀ segs t v node, resolveSegs t segs = some node → ckShapeOk node = true →
      updateCK t segs v = .ok (writeCK t segs v, false) := by
  intro segs
  induction segs with
  | nil =>
      intro t v node h hok
      simp only [resolveSegs] at h
      cases h
      cases t with
      | obj fs =>
          simp only [ckShapeOk] at hok
          simp only [updateCK, ckUpdateAt, writeCK]
          cases hc : lookupKey fs "c" with
          | none => rw [hc] at hok; simp at hok
          | some cv =>
              rw [hc] at hok
              cases cv with
              | obj cf =>
                  have hok2 : hasKey cf "k" = true := by simpa using hok
                  simp only [pyContainsStr, except_bind_ok,
                    any_fst_eq_lookup_isSome]
                  rw [show (lookupKey cf "k").isSome = true from hok2]
                  simp [hok2]
              | null => simp at hok
              | bool b => simp at hok
              | num q => simp at hok
              | str s => simp at hok
              | arr xs => simp at hok
      | null => simp [ckShapeOk] at hok
      | bool b => simp [ckShapeOk] at hok
      | num q => simp [ckShapeOk] at hok
      | str s => simp [ckShapeOk] at hok
      | arr xs => simp [ckShapeOk] at hok
  | cons p rest ih =>
      intro t v node h hok
      simp only [resolveSegs] at h
      cases t with
      | obj fs =>
          simp only [stepSeg] at h
          simp only [updateCK, writeCK]
          cases hp : lookupKey fs p with
          | none => rw [hp] at h; simp at h
          | some child =>
              rw [hp] at h
              have h2 : resolveSegs child rest = some node := h
              show (do
                let r ← updateCK child rest v
                (Except.ok (JSON.obj (setKey fs p r.1), r.2) :
                  Except PyErr (JSON × Bool))) =
                .ok (JSON.obj (setKey fs p (writeCK child rest v)), false)
              rw [ih child v node h2 hok, except_bind_ok]
      | arr xs =>
          simp only [stepSeg] at h
          simp only [updateCK, writeCK]
          by_cases hd : pyIsdigit p
          · rw [if_pos hd] at h
            rw [if_pos hd, if_pos hd]
            by_cases hl : digitsVal 10 p.toList < xs.length
            · rw [if_pos hl, List.get?_eq_get hl] at h
              have h2 : resolveSegs (xs.get ⟨digitsVal 10 p.toList, hl⟩) rest =
                  some node := h
              rw [dif_pos hl, dif_pos hl, ih _ v node h2 hok, except_bind_ok]
            · rw [if_neg hl] at h
              simp at h
          · rw [if_neg hd] at h
            simp at h
      | null => simp [stepSeg] at h
      | bool b => simp [stepSeg] at h
      | num q => simp [stepSeg] at h
      | str s => simp [stepSeg] at h

/-- Looking up the key just set. -/
theorem lookup_setKey_self (fs : List (String × JSON)) (k : String) (v : JSON) :
    lookupKey (setKey fs k v) k = some v := by
  induction fs with
  | nil => simp [setKey, lookupKey]
  | cons kv rest ih =>
      obtain ⟨k0, v0⟩ := kv
      simp only [setKey]
      by_cases hk : k0 = k
      · rw [if_pos hk]; simp [lookupKey]
      · rw [if_neg hk]; simp [lookupKey, hk, ih]

/-- Looking up a different key after a set. -/
theorem lookup_setKey_other (fs : List (String × JSON)) (k k2 : String)
    (v : JSON) (h : k ≠ k2) :
    lookupKey (setKey fs k v) k2 = lookupKey fs k2 := by
  induction fs with
  | nil => simp [setKey, lookupKey, h]
  | cons kv rest ih =>
      obtain ⟨k0, v0⟩ := kv
      simp only [setKey]
      by_cases hk : k0 = k
      · rw [if_pos hk]
        simp only [lookupKey]
        rw [if_neg h, if_neg (hk ▸ h)]
      · rw [if_neg hk]
        simp only [lookupKey]
        by_cases h2 : k0 = k2
        · rw [if_pos h2, if_pos h2]
        · rw [if_neg h2, if_neg h2, ih]

/-- When the walk resolves to a target without the expected shape, the pure
patch leaves the tree unchanged. -/
theorem writeCK_mismatch :
    ∀ segs t v node, resolveSegs t segs = some node → ckShapeOk node = false →
      writeCK t segs v = t := by
  intro segs
  induction segs with
  | nil =>
      intro t v node h hok
      simp only [resolveSegs] at h
      cases h
      cases t with
      | obj fs =>
          simp only [ckShapeOk] at hok
          simp only [writeCK]
          cases hc : lookupKey fs "c" with
          | none => rfl
          | some cv =>
              rw [hc] at hok
              cases cv with
              | obj cf =>
                  have hok2 : hasKey cf "k" = false := by simpa using hok
                  show (if hasKey cf "k" = true then
                    JSON.obj (setKey fs "c" (JSON.obj (setKey cf "k" v)))
                      else JSON.obj fs) = JSON.obj fs
                  rw [hok2]
                  simp
              | null => rfl
              | bool b => rfl
              | num q => rfl
              | str s => rfl
              | arr xs => rfl
      | null => rfl
      | bool b => rfl
      | num q => rfl
      | str s => rfl
      | arr xs => rfl
  | cons p rest ih =>
      intro t v node h hok
      simp only [resolveSegs] at h
      cases t with
      | obj fs =>
          simp only [stepSeg] at h
          simp only [writeCK]
          cases hp : lookupKey fs p with
          | none => rfl
          | some child =>
              rw [hp] at h
              have h2 : resolveSegs child rest = some node := h
              show JSON.obj (setKey fs p (writeCK child rest v)) = .obj fs
              rw [ih child v node h2 hok, setKey_lookup_self hp]
      | arr xs =>
          simp only [stepSeg] at h
          simp only [writeCK]
          by_cases hd : pyIsdigit p
          · rw [if_pos hd] at h
            rw [if_pos hd]
            by_cases hl : digitsVal 10 p.toList < xs.length
            · rw [if_pos hl, List.get?_eq_get hl] at h
              have h2 : resolveSegs (xs.get ⟨digitsVal 10 p.toList, hl⟩) rest =
                  some node := h
              rw [dif_pos hl, ih _ v node h2 hok, list_set_get_self xs _ hl]
            · rw [if_neg hl] at h
              simp at h
          · rw [if_neg hd] at h
            simp at h
      | null => simp [stepSeg] at h
      | bool b => simp [stepSeg] at h
      | num q => simp [stepSeg] at h
      | str s => simp [stepSeg] at h

/-! ### The claims -/

/-- C1 (counterexample): the Tree Walker does not emit one pair per
qualifying node on every input — on a list whose first element is a fill
node with a non-container `c`, the membership test `'k' in item['c']`
raises `TypeError`, so the qualifying fill node at index 1 never gets its
pair, although the spec-side contract demands exactly one. -/
theorem C1_counterexample :
    find_colors (.arr [.obj [("ty", .str "fl"), ("c", .num 0)],
        .obj [("ty", .str "fl"),
          ("c", .obj [("k", .arr [.num 1, .num 0, .num 0, .num 1])])]])
      ["L"] = .error .typeError ∧
    specColors (.arr [.obj [("ty", .str "fl"), ("c", .num 0)],
        .obj [("ty", .str "fl"),
          ("c", .obj [("k", .arr [.num 1, .num 0, .num 0, .num 1])])]])
      ["L"] = [(["L", "1", "Fill"], .arr [.num 1, .num 0, .num 0, .num 1])] :=
  ⟨by decide, by decide⟩

/-- C1 (amended): whenever `find_colors` completes without raising, it
emits exactly one `(path, rgba)` pair, in depth-first order (dict keys in
iteration order, list items in index order), for each dict node whose `ty`
is `"fl"` or `"st"` and which contains a `c` entry carrying a `k` field —
the path being the full key/index chain including the synthetic labels,
and the rgba being the node's `c.k` at discovery; non-dict, non-list
leaves terminate the recursion with no emission.  Formally: a successful
run equals the total spec-side contract function `specColors`. -/
theorem C1_tree_walker_contract (item : JSON) (path : List String)
    (l : List (List String × JSON)) (h : find_colors item path = .ok l) :
    l = specColors item path :=
  find_colors_ok_eq_spec item path l h

/-- Witness for C1 at a concrete fill node. -/
theorem C1_tree_walker_contract_witness :
    [((["L", "Fill"] : List String), JSON.arr [.num 1, .num 0, .num 0, .num 1])] =
      specColors (.obj [("ty", .str "fl"),
        ("c", .obj [("k", .arr [.num 1, .num 0, .num 0, .num 1])])]) ["L"] :=
  C1_tree_walker_contract _ ["L"] _ (by decide)

/-- C2 (counterexample): identity (no-op) edits do not leave every
document unchanged.  The picker echoes the displayed hex back, but the
displayed hex is the quantization `int(c*255)`, so a channel of 0.5 is
re-parsed as 127/255 ≠ 1/2, the comparison `new_rgb[:3] != color[:3]`
stages the edit, and the Patcher rewrites `c.k`: the document (hence its
serialization) changes. -/
theorem C2_counterexample :
    colorEditPass (.obj [("ty", .str "fl"),
        ("c", .obj [("k", .arr [.num (1/2), .num 0, .num 0, .num 1])])])
      "Layer_0" (fun _ cur => cur) =
      .ok (.obj [("ty", .str "fl"),
        ("c", .obj [("k", .arr [.num (127/255), .num 0, .num 0, .num 1])])], []) ∧
    JSON.obj [("ty", .str "fl"),
        ("c", .obj [("k", .arr [.num (127/255), .num 0, .num 0, .num 1])])] ≠
      .obj [("ty", .str "fl"),
        ("c", .obj [("k", .arr [.num (1/2), .num 0, .num 0, .num 1])])] :=
  ⟨by with_unfolding_all rfl, by with_unfolding_all decide⟩

/-- C2 (amended): identity edits leave the document unchanged whenever
every discovered color is a 4-or-more element list whose first three
channels are fixed points of the quantization `int(c*255)/255` (numbers
modelled as exact rationals) — then no change is staged, the Patcher is
not invoked, and the document (hence its byte serialization) is exactly
the pre-edit one. -/
theorem C2_identity_roundtrip (shape : JSON) (pfx : String)
    (colors : List (List String × JSON))
    (hcol : find_colors shape [pfx] = .ok colors)
    (hfix : ∀ pc ∈ colors, FixedColor pc.2) :
    colorEditPass shape pfx (fun _ cur => cur) = .ok (shape, []) := by
  unfold colorEditPass edit_shape_colors
  rw [hcol]
  simp only [except_bind_ok]
  rw [editLoop_identity colors hfix 0 []]
  simp

/-- Witness for C2 on a fill node whose color is `[1, 0, 0, 1]`. -/
theorem C2_identity_roundtrip_witness :
    colorEditPass (.obj [("ty", .str "fl"),
        ("c", .obj [("k", .arr [.num 1, .num 0, .num 0, .num 1])])])
      "Layer_0" (fun _ cur => cur) =
      .ok (.obj [("ty", .str "fl"),
        ("c", .obj [("k", .arr [.num 1, .num 0, .num 0, .num 1])])], []) :=
  C2_identity_roundtrip _ "Layer_0"
    [(["Layer_0", "Fill"], .arr [.num 1, .num 0, .num 0, .num 1])]
    (by decide)
    (by
      intro pc hpc
      simp only [List.mem_singleton] at hpc
      subst hpc
      exact ⟨.num 1, .num 0, .num 0, .num 1, [], rfl,
        ⟨1, by with_unfolding_all rfl, by with_unfolding_all decide,
          by with_unfolding_all decide, by with_unfolding_all rfl⟩,
        ⟨0, by with_unfolding_all rfl, by with_unfolding_all decide,
          by with_unfolding_all decide, by with_unfolding_all rfl⟩,
        ⟨0, by with_unfolding_all rfl, by with_unfolding_all decide,
          by with_unfolding_all decide, by with_unfolding_all rfl⟩⟩)

/-- C3 (confirmed): every edit staged by the editor carries, as its fourth
component, exactly the fourth component of the discovered color it came
from: the staged value is the three picker-parsed floats with the old
`color[3]` appended verbatim, so `new_rgba[3] == old_rgba[3]`; the Patcher
then writes the staged value as-is. -/
theorem C3_alpha_preserved (shape : JSON) (pfx : String)
    (picker : Nat → String → String) (changes : List (List String × JSON))
    (h : edit_shape_colors shape pfx picker = .ok changes) :
    ∀ pv ∈ changes,
      ∃ (colors : List (List String × JSON)) (color : JSON) (rgb3 : List ℚ)
        (alpha : JSON),
        find_colors shape [pfx] = .ok colors ∧ (pv.1, color) ∈ colors ∧
        pySubscrInt color 3 = .ok alpha ∧
        pv.2 = .arr (rgb3.map JSON.num ++ [alpha]) ∧
        (rgb3.map JSON.num ++ [alpha]).get? 3 = some alpha := by
  unfold edit_shape_colors at h
  cases hcol : find_colors shape [pfx] with
  | error e => rw [hcol] at h; simp at h
  | ok colors =>
      rw [hcol] at h
      simp only [except_bind_ok] at h
      intro pv hpv
      rcases editLoop_mem picker colors 0 [] changes h pv hpv with hacc | hex
      · simp at hacc
      · obtain ⟨color, rgb3, alpha, hmem, hal, hlen, hval⟩ := hex
        refine ⟨colors, color, rgb3, alpha, rfl, hmem, hal, hval, ?_⟩
        rw [List.get?_eq_getElem?, List.getElem?_append_right (by simp [hlen])]
        simp [hlen]

/-- Witness for C3: picking `#00ff00` over a red fill with alpha 1/2
stages `[0, 1, 0, 1/2]` — the alpha is carried over. -/
theorem C3_alpha_preserved_witness :
    ∃ (colors : List (List String × JSON)) (color : JSON) (rgb3 : List ℚ)
      (alpha : JSON),
      find_colors (.obj [("ty", .str "fl"),
        ("c", .obj [("k", .arr [.num 1, .num 0, .num 0, .num (1/2)])])])
        ["Layer_0"] = .ok colors ∧
      ((["Layer_0", "Fill"] : List String), color) ∈ colors ∧
      pySubscrInt color 3 = .ok alpha ∧
      (JSON.arr [.num 0, .num 1, .num 0, .num (1/2)] : JSON) =
        .arr (rgb3.map JSON.num ++ [alpha]) ∧
      (rgb3.map JSON.num ++ [alpha]).get? 3 = some alpha :=
  C3_alpha_preserved
    (.obj [("ty", .str "fl"),
      ("c", .obj [("k", .arr [.num 1, .num 0, .num 0, .num (1/2)])])])
    "Layer_0" (fun _ _ => "#00ff00")
    [(["Layer_0", "Fill"], .arr [.num 0, .num 1, .num 0, .num (1/2)])]
    (by with_unfolding_all rfl)
    (["Layer_0", "Fill"], .arr [.num 0, .num 1, .num 0, .num (1/2)])
    (by simp)

set_option maxRecDepth 8000 in
/-- C4 (counterexample): a present frame rate of 0 is NOT guarded:
`safe_get` returns the stored 0.0 and the division
`gif_frames / safe_get(lottie_json, 'fr', 60)` raises
`ZeroDivisionError` instead of falling back to the default. -/
theorem C4_counterexample :
    gifDuration 30 (.obj [("fr", .num 0)]) = .error .zeroDivisionError := by
  with_unfolding_all rfl

set_option maxRecDepth 8000 in
/-- C4 (amended): a missing `fr` falls back to the default frame rate 60
for the duration computation: with `fr` absent from the document the
duration is `frames / 60` and no error is raised. -/
theorem C4_missing_fr_default (fs : List (String × JSON)) (frames : ℚ)
    (hmiss : lookupKey fs "fr" = none) :
    gifDuration frames (.obj fs) = .ok (.finite (frames / 60)) := by
  have h60 : numOverflows (60 : ℚ) = false := by with_unfolding_all rfl
  unfold gifDuration safe_get selectValue
  simp [hmiss, hashableKey, pyFloat, h60, pyDiv]

/-- Witness for C4 on the empty document. -/
theorem C4_missing_fr_default_witness :
    gifDuration 30 (.obj []) = .ok (.finite (30 / 60)) :=
  C4_missing_fr_default [] 30 rfl

/-- C5 (counterexample): an edit whose resolved target has a non-container
`c` value raises `TypeError` in the check `'k' in target['c']` instead of
warning and skipping, and the exception aborts the remaining edits — the
second (well-formed) edit of the mapping is never applied. -/
theorem C5_counterexample :
    apply_color_changes (.obj [("c", .num 0)])
      [(["L", "Fill"], .arr [.num 0, .num 1, .num 0, .num 1]),
       (["L2", "Fill"], .arr [.num 1, .num 1, .num 0, .num 1])] =
      .error .typeError := by decide

/-- C5 (amended): for one staged edit, (1) an unresolvable path segment
ends the edit without raising, with a warning and the subtree unchanged;
(2) if the walk resolves but the target lacks the expected `c.k` shape and
the edit still completes, it warns and leaves the subtree unchanged (a
non-container `c` value raises instead); (3) a target with the expected
shape gets exactly its `c.k` overwritten, with no warning; and (4) each
completed edit hands the updated tree to the remaining edits, so warned
edits are skipped without aborting the others. -/
theorem C5_patcher_edit_semantics (s : JSON) (segs : List String) (v : JSON) :
    (resolveSegs s segs = none → updateCK s segs v = .ok (s, true)) ∧
    (∀ node r, resolveSegs s segs = some node → ckShapeOk node = false →
      updateCK s segs v = .ok r → r = (s, true)) ∧
    (∀ node, resolveSegs s segs = some node → ckShapeOk node = true →
      updateCK s segs v = .ok (writeCK s segs v, false)) ∧
    (∀ (path : List String) (rest : List (List String × JSON)) (r : JSON × Bool),
      updateCK s ((path.drop 1).dropLast) v = .ok r →
      apply_color_changes s ((path, v) :: rest) =
        apply_color_changes r.1 rest >>= fun t =>
          .ok (t.1, if r.2 then path :: t.2 else t.2)) := by
  refine ⟨updateCK_break segs s v, ?_, fun node h hok => updateCK_good segs s v node h hok, ?_⟩
  · intro node r hres hok hupd
    have hch := updateCK_ok_characterization segs s v r hupd
    subst hch
    rw [writeCK_mismatch segs s v node hres hok]
    simp [warnFlagCK, hres, hok]
  · intro path rest r hr
    simp only [apply_color_changes, hr, except_bind_ok]

/-- Witness for C5: a key missing from the target dict is skipped with a
warning and no change. -/
theorem C5_patcher_edit_semantics_witness :
    updateCK (.obj []) ["x"] (.num 0) = .ok (.obj [], true) :=
  (C5_patcher_edit_semantics (.obj []) ["x"] (.num 0)).1 (by decide)

/-- C6 (counterexample): on a document with zero color-bearing nodes
(`c` is the string `"k"`, not a dict carrying `k`), the Tree Walker does
not emit zero pairs — it raises `TypeError` (`'k' in "k"` is a substring
hit, and the subscript `"k"['k']` then fails). -/
theorem C6_counterexample :
    find_colors (.obj [("ty", .str "fl"), ("c", .str "k")]) ["L"] =
      .error .typeError ∧
    countColors (.obj [("ty", .str "fl"), ("c", .str "k")]) = 0 :=
  ⟨by decide, by decide⟩

/-- C6 (amended): on a well-formed document (pairwise-distinct keys at
every dict node — what any Python dict guarantees), whenever the Tree
Walker completes without raising it emits exactly `N` pairs, `N` the
number of color-bearing nodes, and each emitted path — resolved by the
Patcher's rule from its second element to its second-to-last, dict keys
directly and digit-string list indices by integer parse — reaches a node
carrying exactly the discovered color as its `c.k`. -/
theorem C6_walker_patcher_agreement (t : JSON) (pfx : String)
    (l : List (List String × JSON))
    (hwf : wfJSON t = true) (h : find_colors t [pfx] = .ok l) :
    l.length = countColors t ∧
    ∀ pc ∈ l, ∃ node,
      resolveSegs t ((pc.1.drop 1).dropLast) = some node ∧
      nodeColor node = some pc.2 := by
  have hspec := find_colors_ok_eq_spec t [pfx] l h
  subst hspec
  refine ⟨specColors_length t [pfx], ?_⟩
  intro pc hpc
  obtain ⟨p, c⟩ := pc
  obtain ⟨segs, label, node, hp, hres, hcol⟩ :=
    specColors_resolve t hwf [pfx] p c hpc
  refine ⟨node, ?_, hcol⟩
  have hsegs : (p.drop 1).dropLast = segs := by
    rw [hp]
    simp
  rw [hsegs]
  exact hres

/-- Witness for C6 on a one-node document with a list-valued path step. -/
theorem C6_walker_patcher_agreement_witness :
    ([((["L", "0", "Fill"] : List String), JSON.num 7)].length =
      countColors (.arr [.obj [("ty", .str "fl"), ("c", .obj [("k", .num 7)])]])) ∧
    ∀ pc ∈ [((["L", "0", "Fill"] : List String), JSON.num 7)], ∃ node,
      resolveSegs (.arr [.obj [("ty", .str "fl"), ("c", .obj [("k", .num 7)])]])
        ((pc.1.drop 1).dropLast) = some node ∧
      nodeColor node = some pc.2 :=
  C6_walker_patcher_agreement
    (.arr [.obj [("ty", .str "fl"), ("c", .obj [("k", .num 7)])]]) "L"
    [(["L", "0", "Fill"], .num 7)] (by decide) (by decide)

set_option maxRecDepth 8000 in
/-- C7 (counterexample): the slider's upper bound is
`max(1, int(op - ip))`, not `op - ip`: on a document with `ip = op = 0`
the slider still offers the range `[0, 1]`, and selecting `(0, 1)` writes
back `op = 1`, violating `op ≤ original_op - original_ip = 0`. -/
theorem C7_counterexample :
    total_frames (.obj [("ip", .num 0), ("op", .num 0)]) = .ok 1 ∧
    trimUpdate (.obj [("ip", .num 0), ("op", .num 0)]) 0 1 =
      .ok (.obj [("ip", .num 0), ("op", .num 1)]) ∧
    ¬((1 : ℚ) ≤ 0 - 0) :=
  ⟨by with_unfolding_all rfl, by with_unfolding_all rfl, by norm_num⟩

/-- C7 (amended): after a slider interaction selecting `a ≤ b` within the
offered range `[0, total_frames]` (with
`total_frames = max(1, int(original_op - original_ip))`), the written-back
document satisfies `0 ≤ ip ≤ op ≤ total_frames` — the bound is
`max(1, int(op₀ - ip₀))`, not `op₀ - ip₀` itself. -/
theorem C7_trim_bounds (fs : List (String × JSON)) (T a b : Int)
    (_hT : total_frames (.obj fs) = .ok T)
    (h0 : 0 ≤ a) (hab : a ≤ b) (hbT : b ≤ T) :
    ∃ fs2, trimUpdate (.obj fs) a b = .ok (.obj fs2) ∧
      lookupKey fs2 "ip" = some (.num a) ∧
      lookupKey fs2 "op" = some (.num b) ∧
      0 ≤ a ∧ a ≤ b ∧ b ≤ T := by
  refine ⟨setKey (setKey fs "ip" (.num a)) "op" (.num b), rfl, ?_, ?_,
    h0, hab, hbT⟩
  · rw [lookup_setKey_other _ "op" "ip" _ (by decide), lookup_setKey_self]
  · rw [lookup_setKey_self]

set_option maxRecDepth 8000 in
/-- Witness for C7 on the degenerate zero-length document. -/
theorem C7_trim_bounds_witness :
    ∃ fs2, trimUpdate (.obj [("ip", JSON.num 0), ("op", JSON.num 0)]) 0 1 =
        .ok (.obj fs2) ∧
      lookupKey fs2 "ip" = some (.num (0 : Int)) ∧
      lookupKey fs2 "op" = some (.num (1 : Int)) ∧
      (0 : Int) ≤ 0 ∧ (0 : Int) ≤ 1 ∧ (1 : Int) ≤ 1 :=
  C7_trim_bounds [("ip", .num 0), ("op", .num 0)] 1 0 1
    (by with_unfolding_all rfl) (by decide) (by decide) (by decide)

/-- C8 (confirmed): for both position (`ks.p`) and scale (`ks.s`), in both
the bare-array and the `{k: ...}` keyed representation, the write-back is
`[x, y] + old[2:]` placed into the same representation: the user-edited
first two components, with every trailing component preserved unchanged. -/
theorem C8_transform_trailing_preserved (ks : List (String × JSON)) (x y : ℚ) :
    (∀ xs, lookupKey ks "p" = some (.arr xs) →
      editPosition ks x y =
        .ok (setKey ks "p" (.arr ([.num x, .num y] ++ xs.drop 2)))) ∧
    (∀ pf xs, lookupKey ks "p" = some (.obj pf) →
      lookupKey pf "k" = some (.arr xs) →
      editPosition ks x y =
        .ok (setKey ks "p"
          (.obj (setKey pf "k" (.arr ([.num x, .num y] ++ xs.drop 2)))))) ∧
    (∀ xs, lookupKey ks "s" = some (.arr xs) →
      editScale ks x y =
        .ok (setKey ks "s" (.arr ([.num x, .num y] ++ xs.drop 2)))) ∧
    (∀ sf xs, lookupKey ks "s" = some (.obj sf) →
      lookupKey sf "k" = some (.arr xs) →
      editScale ks x y =
        .ok (setKey ks "s"
          (.obj (setKey sf "k" (.arr ([.num x, .num y] ++ xs.drop 2)))))) := by
  refine ⟨?_, ?_, ?_, ?_⟩
  · intro xs hp
    unfold editPosition
    rw [hp]
    simp [pySliceDrop, pyListConcat]
  · intro pf xs hp hk
    unfold editPosition
    rw [hp]
    simp [hk, pySliceDrop, pyListConcat]
  · intro xs hs
    unfold editScale
    rw [hs]
    simp [pySliceDrop, pyListConcat]
  · intro sf xs hs hk
    unfold editScale
    rw [hs]
    simp [hk, pySliceDrop, pyListConcat]

/-- Witness for C8 on a bare three-component position. -/
theorem C8_transform_trailing_preserved_witness :
    editPosition [("p", JSON.arr [.num 1, .num 2, .num 3])] 10 20 =
      .ok (setKey [("p", JSON.arr [.num 1, .num 2, .num 3])] "p"
        (.arr ([.num 10, .num 20] ++ [JSON.num 1, .num 2, .num 3].drop 2))) :=
  (C8_transform_trailing_preserved [("p", .arr [.num 1, .num 2, .num 3])]
    10 20).1 [.num 1, .num 2, .num 3] rfl

/-- C9 (counterexample): not every non-200 status yields a LoadError —
`raise_for_status` only raises for 4xx/5xx, so a 201 response with a JSON
body produces a document and reports nothing. -/
theorem C9_counterexample :
    load_lottieurl (.resp 201 (.ok (.obj []))) = (some (.obj []), false) := by
  decide

/-- C9 (amended): a 404 — and any 4xx/5xx status, any transport error, and
any unparseable body — makes the Loader report the error and produce no
document (`None`); the loader never touches the previously held document
value (it consumes only the fetch outcome), and `main` aborts the
interaction when the result is `None`. -/
theorem C9_loader_failure (f : Fetch)
    (h : f = .transport ∨
      (∃ s b, f = .resp s b ∧ 400 ≤ s ∧ s < 600) ∨
      ∃ s, f = .resp s (.error ())) :
    load_lottieurl f = (none, true) := by
  rcases h with rfl | ⟨s, b, rfl, h4, h6⟩ | ⟨s, rfl⟩
  · rfl
  · simp [load_lottieurl, h4, h6]
  · by_cases hr : 400 ≤ s ∧ s < 600 <;> simp [load_lottieurl, hr]

/-- Witness for C9 at HTTP 404. -/
theorem C9_loader_failure_witness :
    load_lottieurl (.resp 404 (.error ())) = (none, true) :=
  C9_loader_failure _ (Or.inr (Or.inl ⟨404, .error (), rfl, by decide, by decide⟩))

set_option maxRecDepth 8000 in
/-- C10 (counterexample): `safe_get` is not total over every object and
key — `obj.get(key, default)` on a dict with an unhashable (list) key
raises `TypeError` outside the `try`; and even with a hashable key, a
stored integer beyond the double range makes `float(value)` raise
`OverflowError`, which `except (ValueError, TypeError)` does not catch. -/
theorem C10_counterexample :
    safe_get (.obj []) (.listK []) (.num 0) = .error .typeError ∧
    safe_get (.obj [("fr", .num (10 ^ 400))]) (.strK "fr") (.num 60) =
      .error .overflowError :=
  ⟨by decide, by with_unfolding_all rfl⟩

/-- C10 (amended): for every hashable key (or non-dict object) and every
default coercible to float, `safe_get` returns a float unless the
looked-up value is an integer so large that `float()` overflows — that
`OverflowError` escapes the `try`, which catches only `ValueError` and
`TypeError`; in particular it returns `float(default)` whenever the
looked-up value fails to coerce with one of those two errors, the object
is neither dict nor list, the dict key is absent, or the list index is
not an in-range int-instance. -/
theorem C10_safe_get_total (o : JSON) (key : PyKey) (d : JSON) (f : PyFloat)
    (hd : pyFloat d = .ok f)
    (hk : hashableKey key = true ∨ ∀ fs, o ≠ .obj fs)
    (hov : ∀ v, selectValue o key d = .ok v →
      pyFloat v ≠ .error .overflowError) :
    (∃ r, safe_get o key d = .ok r) ∧
    (∀ v e, selectValue o key d = .ok v → pyFloat v = .error e →
      safe_get o key d = .ok f) ∧
    ((∀ fs, o ≠ .obj fs) → (∀ xs, o ≠ .arr xs) → safe_get o key d = .ok f) ∧
    (∀ fs s, o = .obj fs → key = .strK s → lookupKey fs s = none →
      safe_get o key d = .ok f) ∧
    (∀ xs, o = .arr xs →
      (isIntKey key = false ∨ keyIntVal key < 0 ∨
        (xs.length : Int) ≤ keyIntVal key) →
      safe_get o key d = .ok f) := by
  have hok : ∀ v r, selectValue o key d = .ok v → pyFloat v = .ok r →
      safe_get o key d = .ok r := by
    intro v r hv hr
    unfold safe_get
    rw [hv]
    simp only [except_bind_ok]
    rw [hr]
    rfl
  have hcaught : ∀ v e, selectValue o key d = .ok v → pyFloat v = .error e →
      safe_get o key d = .ok f := by
    intro v e hv he
    rcases pyFloat_error_cases v e he with rfl | rfl | rfl
    · unfold safe_get
      rw [hv]
      simp only [except_bind_ok]
      rw [he]
      exact hd
    · unfold safe_get
      rw [hv]
      simp only [except_bind_ok]
      rw [he]
      exact hd
    · exact absurd he (hov v hv)
  have hsel : ∃ v, selectValue o key d = .ok v := by
    cases o with
    | obj fs =>
        rcases hk with hk | hk
        · simp only [selectValue]
          rw [if_pos hk]
          cases key with
          | strK s => exact ⟨_, rfl⟩
          | intK n => exact ⟨d, rfl⟩
          | boolK b => exact ⟨d, rfl⟩
          | floatK q => exact ⟨d, rfl⟩
          | noneK => exact ⟨d, rfl⟩
          | listK xs => simp [hashableKey] at hk
        · exact absurd rfl (hk fs)
    | arr xs =>
        simp only [selectValue]
        by_cases hik : isIntKey key = true
        · rw [if_pos hik]
          by_cases hrange : 0 ≤ keyIntVal key ∧ keyIntVal key < (xs.length : Int)
          · rw [if_pos hrange]; exact ⟨_, rfl⟩
          · rw [if_neg hrange]; exact ⟨d, rfl⟩
        · rw [if_neg hik]; exact ⟨d, rfl⟩
    | null => exact ⟨d, rfl⟩
    | bool b => exact ⟨d, rfl⟩
    | num q => exact ⟨d, rfl⟩
    | str s => exact ⟨d, rfl⟩
  have hdefault : selectValue o key d = .ok d → safe_get o key d = .ok f :=
    fun hv => hok d f hv hd
  refine ⟨?_, ?_, ?_, ?_, ?_⟩
  · obtain ⟨v, hv⟩ := hsel
    cases hf : pyFloat v with
    | ok r => exact ⟨r, hok v r hv hf⟩
    | error e => exact ⟨f, hcaught v e hv hf⟩
  · exact hcaught
  · intro hno hna
    apply hdefault
    cases o with
    | obj fs => exact absurd rfl (hno fs)
    | arr xs => exact absurd rfl (hna xs)
    | null => rfl
    | bool b => rfl
    | num q => rfl
    | str s => rfl
  · intro fs s ho hkey hmiss
    subst ho
    subst hkey
    apply hdefault
    simp only [selectValue]
    rw [if_pos (by simp [hashableKey])]
    simp [hmiss]
  · intro xs ho hbad
    subst ho
    apply hdefault
    simp only [selectValue]
    rcases hbad with hbad | hbad | hbad
    · rw [if_neg (by simp [hbad])]
    · by_cases hik : isIntKey key = true
      · rw [if_pos hik, if_neg (by omega)]
      · rw [if_neg hik]
    · by_cases hik : isIntKey key = true
      · rw [if_pos hik, if_neg (by omega)]
      · rw [if_neg hik]

set_option maxRecDepth 8000 in
/-- Witness for C10: a non-dict, non-list object always yields
`float(default)`. -/
theorem C10_safe_get_total_witness :
    safe_get (.str "zz") (.intK 1) (.num 7) = .ok (.finite 7) :=
  (C10_safe_get_total (.str "zz") (.intK 1) (.num 7) (.finite 7)
    (by with_unfolding_all rfl)
    (Or.inr (fun fs h => JSON.noConfusion h))
    (fun v hv => by
      have hv2 : Except.ok (JSON.num 7) = Except.ok v := hv
      injection hv2 with h
      subst h
      with_unfolding_all decide)).2.2.1
    (fun fs h => JSON.noConfusion h) (fun xs h => JSON.noConfusion h)

end LottieApp
